import Mathlib

/-! Firmware loader of `updater.cpp`.

A shallow embedding of the pure core of `src/updater.cpp`: `crc16`, `getbyte`,
`loadfirmware` (the binary fast path and the hex-record decoder), `calcsum` and
the command frame of `main`, followed
by the properties of the specification that concern them.

Conventions of the embedding.

* A byte or a `char` is a `Nat`; a file, a line and the firmware image are
  `List Nat`.  Every range test of the source lies inside ASCII, so the
  signedness of `char` plays no role.
* An `int` is an `Int`.  The bitwise operators of C act on the 32-bit two's
  complement pattern (`toBits`, `ofBits`).  The additions and subtractions of
  `loadfirmware` stay far below `2 ^ 31` and are ordinary integer operations.
* The cursor `char *&p` of `getbyte` is an index into the line; `getbyte`
  returns the value together with the new cursor.
* The stream `FILE *f` is the list of bytes not yet read.  Failures of the
  environment (allocation, `fopen`, a read error in `fread`) are outside the
  embedding.
* In `offset = getbyte(p) << 8 | getbyte(p)` the left operand is evaluated
  first (the high byte of the address is read before the low byte).
-/

namespace Updater

/-! ## Constants and C `int` operators -/

/-- Size of the flash image in bytes: `const unsigned int FLASHSIZE = 0x100000`. -/
def FLASHSIZE : Nat := 0x100000

/-- The 32-bit two's complement pattern of an `int`. -/
def toBits (x : Int) : Nat := (x % 2 ^ 32).toNat

/-- The `int` denoted by a 32-bit pattern. -/
def ofBits (n : Nat) : Int := if n < 2 ^ 31 then (n : Int) else (n : Int) - 2 ^ 32

/-- C `x | y` on `int`. -/
def intOr (x y : Int) : Int := ofBits (toBits x ||| toBits y)

/-- C `x & y` on `int`. -/
def intAnd (x y : Int) : Int := ofBits (toBits x &&& toBits y)

/-- C `x << k` on `int`; bits shifted out of the 32-bit word are dropped. -/
def intShl (x : Int) (k : Nat) : Int := ofBits ((toBits x <<< k) % 2 ^ 32)

/-- C `x >> k` on `int` (arithmetic shift). -/
def intShr (x : Int) (k : Nat) : Int := x / ((2 ^ k : Nat) : Int)

/-! ## `crc16` (source lines 42-60) -/

/-- One pass of the `do ... while (--i)` body.  The `int crc` is held as its
32-bit pattern: `crc << 1` drops the bit shifted out of the word. -/
def crcBit (crc : Nat) : Nat :=
  if crc &&& 0x8000 ≠ 0 then ((crc <<< 1) % 2 ^ 32) ^^^ 0x1021 else (crc <<< 1) % 2 ^ 32

/-- One pass of the `while (--count >= 0)` body: `crc = crc ^ (int)*ptr++ << 8`
followed by the eight passes of the inner loop. -/
def crcByte (crc b : Nat) : Nat := crcBit^[8] (crc ^^^ (b <<< 8))

/-- The function `crc16(ptr, count)` on the `count` bytes at `ptr`; the result
is the `int` truncated to `unsigned short`. -/
def crc16 (data : List Nat) : Nat := (data.foldl crcByte 0) % 2 ^ 16

/-! ## `getbyte` (source lines 173-199) -/

/-- The character at index `p` of the line buffer; the buffer holds the
terminating NUL after the characters of the line. -/
def charAt (line : List Nat) (p : Nat) : Nat := line.getD p 0

/-- The digit decoding that `getbyte` applies to `h` and to `l`: the value of
a hexadecimal digit, and `-1` where the source executes `return -1`. -/
def hexDigit (c : Nat) : Int :=
  if 48 ≤ c ∧ c ≤ 57 then (c : Int) - 48
  else if 65 ≤ c ∧ c ≤ 70 then (c : Int) - (65 - 10)
  else if 97 ≤ c ∧ c ≤ 102 then (c : Int) - (97 - 10)
  else -1

/-- The function `getbyte(p)`: returns the value and the cursor after the call. -/
def getbyte (line : List Nat) (p : Nat) : Int × Nat :=
  let h := hexDigit (charAt line p)
  if h < 0 then (-1, p)
  else
    let l := hexDigit (charAt line (p + 1))
    if l < 0 then (-1, p)
    else (intOr (intShl h 4) l, p + 2)

/-! ## `loadfirmware` (source lines 62-171) -/

/-- The failures of `loadfirmware`, one per message written to `stderr`; a
message that prints the line carries the line as `%s` prints it. -/
inductive FwError where
  | shortRead
  | malformedLine (line : List Nat)
  | tooLarge
  | shortLine (line : List Nat)
  | checksumMismatch (line : List Nat)
  | tooSmall
  deriving DecidableEq, Repr

/-- Outcome of one pass of the `while (fgets ...)` body: the loop goes on
(`continue` or the end of the body), leaves through `break`, or the function
returns `NULL`. -/
inductive LineResult where
  | next (bank : Int) (fwbuf : List Nat)
  | stop (bank : Int) (fwbuf : List Nat)
  | fail (e : FwError)
  deriving DecidableEq, Repr

deriving instance DecidableEq for Except

/-- The character codes of a string literal. -/
def ascii (s : String) : List Nat := s.toList.map Char.toNat

/-- What `%s` prints of the line buffer: the characters before the first NUL. -/
def cstr (line : List Nat) : List Nat := line.takeWhile (fun c => c ≠ 0)

/-- The test `strncmp(s, t, n) == 0`. -/
def strncmpEq : Nat → List Nat → List Nat → Bool
  | 0, _, _ => true
  | n + 1, s, t =>
    if s.headD 0 ≠ t.headD 0 then false
    else if s.headD 0 = 0 then true
    else strncmpEq n s.tail t.tail

/-- The loop `for (i = 0; i < length; i++, offset++)` of source lines 143-153,
with `n` passes left; `none` is the `Short line` return.  The store
`fwbuf[(bank << 16) | offset] = (char)b` is `List.set`, which leaves the image
as it is for an index outside it (in C such a store is undefined). -/
def payloadLoop : Nat → List Nat → Nat → Int → Int → Int → List Nat →
    Option (Nat × Int × List Nat)
  | 0, _, p, _, _, hexsum, fwbuf => some (p, hexsum, fwbuf)
  | n + 1, line, p, bank, offset, hexsum, fwbuf =>
    let (b, p) := getbyte line p
    let hexsum := intAnd (hexsum + b) 0xff
    if b < 0 then none
    else
      payloadLoop n line p bank (offset + 1) hexsum
        (fwbuf.set (intOr (intShl bank 16) offset).toNat b.toNat)

/-- The body of the `while (fgets ...)` loop, source lines 107-159. -/
def hexLine (line : List Nat) (bank : Int) (fwbuf : List Nat) : LineResult :=
  if charAt line 0 ≠ 58 then .next bank fwbuf
  else
    let p := 1
    let (length, p) := getbyte line p
    let (hi, p) := getbyte line p
    let (lo, p) := getbyte line p
    let offset := intOr (intShl hi 8) lo
    let (type, p) := getbyte line p
    if length < 0 ∨ offset < 0 ∨ type < 0 ∨ (type ≠ 0 ∧ length ≠ 0) then
      .fail (.malformedLine (cstr line))
    else if length = 0 then
      if strncmpEq 11 line (ascii ":00000155AA") then
        let bank := bank + 1
        if bank ≥ 16 then .fail .tooLarge else .next bank fwbuf
      else if strncmpEq 11 line (ascii ":00000001FF") then .stop bank fwbuf
      else .fail (.malformedLine (cstr line))
    else
      let hexsum := intAnd (length + intShr offset 8 + intAnd offset 0xff) 0xff
      match payloadLoop length.toNat line p bank offset hexsum fwbuf with
      | none => .fail (.shortLine (cstr line))
      | some (p, hexsum, fwbuf) =>
        let hexsum := intAnd (0x100 - hexsum) 0xff
        if hexsum ≠ (getbyte line p).1 then .fail (.checksumMismatch (cstr line))
        else .next bank fwbuf

/-- Reading of at most `k` characters by `fgets`, stopping after a newline:
the characters stored and the rest of the stream. -/
def fgetsAux : Nat → List Nat → List Nat × List Nat
  | 0, f => ([], f)
  | _ + 1, [] => ([], [])
  | k + 1, c :: f =>
    if c = 10 then ([c], f)
    else ((fgetsAux k f).1.cons c, (fgetsAux k f).2)

/-- The call `fgets(line, size, f)`: `none` is the `NULL` returned at end of
file, otherwise the line stored (at most `size - 1` characters) and the rest
of the stream. -/
def fgets (size : Nat) (f : List Nat) : Option (List Nat × List Nat) :=
  if f = [] then none else some (fgetsAux (size - 1) f)

/-- The loop `while (fgets(line, sizeof(line), f))` of source lines 105-160
with `char line[80]`.  Every pass consumes at least one byte of the stream, so
a fuel of the length of the stream is never exhausted before the end of file
(`hexLoop_fuel`). -/
def hexLoop : Nat → List Nat → Int → List Nat → Except FwError (Int × List Nat)
  | 0, _, bank, fwbuf => .ok (bank, fwbuf)
  | fuel + 1, f, bank, fwbuf =>
    match fgets 80 f with
    | none => .ok (bank, fwbuf)
    | some (line, rest) =>
      match hexLine line bank fwbuf with
      | .next bank fwbuf => hexLoop fuel rest bank fwbuf
      | .stop bank fwbuf => .ok (bank, fwbuf)
      | .fail e => .error e

/-- The hex-record decoder of `loadfirmware`, source lines 101-170. -/
def hexDecode (f : List Nat) : Except FwError (List Nat) :=
  match hexLoop f.length f 0 (List.replicate FLASHSIZE 0xff) with
  | .error e => .error e
  | .ok (bank, fwbuf) => if bank ≠ 15 then .error .tooSmall else .ok fwbuf

/-- The call `fread(fwbuf, 1, n, f)` on a rewound stream: the bytes stored. -/
def fread (n : Nat) (f : List Nat) : List Nat := f.take n

/-- The function `loadfirmware` on the contents `f` of the firmware file: a
file of exactly `FLASHSIZE` bytes is read as a binary image (source lines
86-99), any other file goes to the hex-record decoder. -/
def loadfirmware (f : List Nat) : Except FwError (List Nat) :=
  if f.length = FLASHSIZE then
    if (fread FLASHSIZE f).length ≠ FLASHSIZE then .error .shortRead
    else .ok (fread FLASHSIZE f)
  else hexDecode f

/-! ## `calcsum` (source lines 201-210) -/

/-- The loop `for (flashsum = 0, i = 0; i < FLASHSIZE; i++) flashsum += fwbuf[i]`
with `n` passes left; `unsigned int flashsum` is reduced modulo `2 ^ 32` after
every addition. -/
def calcsumLoop (fwbuf : List Nat) : Nat → Nat → Nat → Nat
  | 0, _, flashsum => flashsum
  | n + 1, i, flashsum => calcsumLoop fwbuf n (i + 1) ((flashsum + fwbuf.getD i 0) % 2 ^ 32)

/-- The function `calcsum(fwbuf)`: returns `flashsum & 0xffff`. -/
def calcsum (fwbuf : List Nat) : Nat := calcsumLoop fwbuf FLASHSIZE 0 0 &&& 0xffff

/-! ## The command frame built in `main` (source lines 278-289) -/

/-- The opcode `#define WRITE_MEMORY 0xFB06`. -/
def WRITE_MEMORY : Int := 0xFB06

/-- The bytes `cmd[0]` .. `cmd[10]` after source lines 278-289, for the opcode
macro `opcode`, the `int address` and the `len` bytes of `block` that `fread`
returned (`size_t len`, `uint16_t crc`). -/
def commandFrame (opcode address : Int) (block : List Nat) : List Nat :=
  let len := block.length
  let crc := crc16 block
  [(intAnd (intShr opcode 8) 0xff).toNat,
   (intAnd opcode 0xff).toNat,
   (intAnd (intShr address 24) 0xff).toNat,
   (intAnd (intShr address 16) 0xff).toNat,
   (intAnd (intShr address 8) 0xff).toNat,
   (intAnd address 0xff).toNat,
   (len >>> 8) &&& 0xff,
   len &&& 0xff,
   0x00,
   crc &&& 0xFF,
   (crc >>> 8) &&& 0xFF]

/-! ## Specification-side definitions -/

/-- One step of the CRC-16/XMODEM register: polynomial `0x1021`, most
significant bit first, the register masked to 16 bits after the shift. -/
def xmodemBit (reg : Nat) : Nat :=
  if reg.testBit 15 then ((reg <<< 1) &&& 0xFFFF) ^^^ 0x1021 else (reg <<< 1) &&& 0xFFFF

/-- The CRC-16/XMODEM register after one more byte. -/
def xmodemByte (reg b : Nat) : Nat := xmodemBit^[8] (reg ^^^ (b <<< 8))

/-- CRC-16/XMODEM of a byte sequence: initial value 0, no reflection, no
final XOR. -/
def xmodem (data : List Nat) : Nat := data.foldl xmodemByte 0


/-- The sixteen upper-case hexadecimal digits. -/
def upperDigits : List Nat := ascii "0123456789ABCDEF"

/-- The sixteen lower-case hexadecimal digits. -/
def lowerDigits : List Nat := ascii "0123456789abcdef"

/-- The value of a hexadecimal digit character of either case, `none` for
every other character. -/
def hexVal (c : Nat) : Option Nat :=
  if c ∈ upperDigits then some (upperDigits.indexOf c)
  else if c ∈ lowerDigits then some (lowerDigits.indexOf c)
  else none

/-- The two-digit upper-case rendering of a byte. -/
def hexByte (b : Nat) : List Nat := [upperDigits.getD (b / 16) 0, upperDigits.getD (b % 16) 0]

/-- The two-digit lower-case rendering of a byte. -/
def hexByteLower (b : Nat) : List Nat :=
  [lowerDigits.getD (b / 16) 0, lowerDigits.getD (b % 16) 0]

/-- The upper-case rendering of a byte sequence. -/
def hexBytes : List Nat → List Nat
  | [] => []
  | b :: bs => hexByte b ++ hexBytes bs

/-- The line holds, from index `p` on, two hexadecimal digits (of either
case) for each byte of `bytes`, in order. -/
def BytesAt (line : List Nat) : Nat → List Nat → Prop
  | _, [] => True
  | p, b :: bytes =>
    hexVal (charAt line p) = some (b / 16) ∧ hexVal (charAt line (p + 1)) = some (b % 16) ∧
      b < 256 ∧ BytesAt line (p + 2) bytes

/-- The image after the payload loop has stored `bytes` from `offset` on in
bank `bank`. -/
def writePayload (bank : Int) (bytes : List Nat) : Int → List Nat → List Nat :=
  match bytes with
  | [] => fun _ fwbuf => fwbuf
  | b :: bs => fun offset fwbuf =>
    writePayload bank bs (offset + 1) (fwbuf.set (intOr (intShl bank 16) offset).toNat b)

/-- The lines that successive calls of `fgets(line, 80, f)` store, with fuel. -/
def readLines : Nat → List Nat → List (List Nat)
  | 0, _ => []
  | fuel + 1, f =>
    match fgets 80 f with
    | none => []
    | some (line, rest) => line :: readLines fuel rest

/-- The lines that successive calls of `fgets(line, 80, f)` store until the
end of the file. -/
def lines (f : List Nat) : List (List Nat) := readLines f.length f

/-- The loop body applied to a sequence of lines, as long as the loop goes on. -/
def hexLines : List (List Nat) → Int → List Nat → LineResult
  | [], bank, fwbuf => .next bank fwbuf
  | l :: ls, bank, fwbuf =>
    match hexLine l bank fwbuf with
    | .next bank fwbuf => hexLines ls bank fwbuf
    | r => r

/-- What the function returns after the loop ended with the given outcome. -/
def afterLoop : LineResult → Except FwError (List Nat)
  | .next bank fwbuf => if bank ≠ 15 then .error .tooSmall else .ok fwbuf
  | .stop bank fwbuf => if bank ≠ 15 then .error .tooSmall else .ok fwbuf
  | .fail e => .error e

/-- The line starts with the bank-switch sentinel `:00000155AA`. -/
def isBankSwitch (line : List Nat) : Bool := strncmpEq 11 line (ascii ":00000155AA")

/-- The line starts with the end-of-file sentinel `:00000001FF`. -/
def isEof (line : List Nat) : Bool := strncmpEq 11 line (ascii ":00000001FF")

/-- The image with which the hex decoder starts: `memset(fwbuf, 0xff, FLASHSIZE)`. -/
def blankImage : List Nat := List.replicate FLASHSIZE 0xff

/-- The decode of the file `f` arrives at the line `line` with bank counter
`bank` and image `fwbuf`: every earlier line was processed and the loop went on. -/
def ReachesLine (f line : List Nat) (bank : Int) (fwbuf : List Nat) : Prop :=
  ∃ before after, lines f = before ++ line :: after ∧
    hexLines before 0 blankImage = .next bank fwbuf

/-- The checksum byte that the specification prescribes for a data record. -/
def lineChecksum (len hi lo : Nat) (payload : List Nat) : Nat :=
  (0x100 - ((len + hi + lo + payload.sum) &&& 0xFF)) &&& 0xFF

/-- The lines that the loop processes when no line fails: the lines up to and
including the first end-of-file sentinel. -/
def processed : List (List Nat) → List (List Nat)
  | [] => []
  | l :: ls => if isEof l then [l] else l :: processed ls

/-- The text made of `n` copies of a line. -/
def repeatLines : Nat → List Nat → List Nat
  | 0, _ => []
  | n + 1, l => l ++ repeatLines n l

/-- The length that the line declares: the value of its length field, and 0
when the length field is not two hexadecimal digits. -/
def declaredLength (line : List Nat) : Nat :=
  match hexVal (charAt line 1), hexVal (charAt line 2) with
  | some h, some l => 16 * h + l
  | _, _ => 0

/-- A digit position of the length, the address, the type, a declared payload
byte or the checksum byte of the line does not hold a hexadecimal digit. -/
def BadDigit (line : List Nat) : Prop :=
  ∃ k, k < 5 + declaredLength line ∧
    (hexVal (charAt line (1 + 2 * k)) = none ∨ hexVal (charAt line (1 + 2 * k + 1)) = none)

/-- The text of a type-0 data record for the bank-relative address `a` and
the payload `p`, in upper-case digits, with the prescribed checksum byte and a
newline. -/
def dataRecord (a : Nat) (p : List Nat) : List Nat :=
  58 :: hexBytes ([p.length, a / 256, a % 256, 0] ++ p ++
    [lineChecksum p.length (a / 256) (a % 256) p]) ++ [10]

/-- The file made of one data record, fifteen bank-switch sentinel lines and
the end-of-file sentinel line. -/
def endToEndFile (a : Nat) (p : List Nat) : List Nat :=
  dataRecord a p ++ (repeatLines 15 (ascii ":00000155AA\n") ++ ascii ":00000001FF\n")

/-- The values of the bank counter at the head of the loop, one for each line
that the loop arrives at and one for the end of the input: the trace stops after
the line at which the loop leaves through `break` or the function returns. -/
def bankTrace : List (List Nat) → Int → List Nat → List Int
  | [], bank, _ => [bank]
  | l :: ls, bank, fwbuf =>
    bank :: (match hexLine l bank fwbuf with
      | .next b fw => bankTrace ls b fw
      | _ => [])

/-- The stores `fwbuf[(bank << 16) | offset] = (char)b` that the payload loop
executes, in order, as pairs of the index and the value `b`; the stores made
before a `Short line` return are included. -/
def payloadStores : Nat → List Nat → Nat → Int → Int → List (Int × Int)
  | 0, _, _, _, _ => []
  | n + 1, line, p, bank, offset =>
    if (getbyte line p).1 < 0 then []
    else
      (intOr (intShl bank 16) offset, (getbyte line p).1) ::
        payloadStores n line (getbyte line p).2 bank (offset + 1)

/-- The stores that the body of the loop executes on a line. -/
def lineStores (line : List Nat) (bank : Int) : List (Int × Int) :=
  if charAt line 0 ≠ 58 then []
  else
    let p := 1
    let (length, p) := getbyte line p
    let (hi, p) := getbyte line p
    let (lo, p) := getbyte line p
    let offset := intOr (intShl hi 8) lo
    let (type, p) := getbyte line p
    if length < 0 ∨ offset < 0 ∨ type < 0 ∨ (type ≠ 0 ∧ length ≠ 0) then []
    else if length = 0 then []
    else payloadStores length.toNat line p bank offset

/-- The stores that the loop executes on a sequence of lines, up to the line
at which the loop leaves or the function returns. -/
def loopStores : List (List Nat) → Int → List Nat → List (Int × Int)
  | [], _, _ => []
  | l :: ls, bank, fwbuf =>
    lineStores l bank ++ (match hexLine l bank fwbuf with
      | .next b fw => loopStores ls b fw
      | _ => [])

/-- The image after a sequence of stores. -/
def applyStores (fwbuf : List Nat) (stores : List (Int × Int)) : List Nat :=
  stores.foldl (fun fw s => fw.set s.1.toNat s.2.toNat) fwbuf

/-- The text is empty or ends with a newline: what follows it starts a line. -/
def AtLineStart (text : List Nat) : Prop := text = [] ∨ ∃ body, text = body ++ [10]

/-- A block of whole lines none of whose pieces, as `fgets(line, 80, f)` cuts
them, starts with `:`. -/
def SkipBlock (block : List Nat) : Prop :=
  AtLineStart block ∧ ∀ l ∈ lines block, charAt l 0 ≠ 58

/-- The file `g` is obtained from the file `f` by inserting and deleting
blocks of skipped lines at starts of lines, any number of times. -/
inductive SkipEdit : List Nat → List Nat → Prop where
  | refl (f : List Nat) : SkipEdit f f
  | insert (before block after : List Nat) : AtLineStart before → SkipBlock block →
      SkipEdit (before ++ after) (before ++ block ++ after)
  | delete (before block after : List Nat) : AtLineStart before → SkipBlock block →
      SkipEdit (before ++ block ++ after) (before ++ after)
  | trans {f g h : List Nat} : SkipEdit f g → SkipEdit g h → SkipEdit f h

/-! ## Theorems -/

/-! ## C1: `crc16` is CRC-16/XMODEM -/

theorem low16_testBit {x y : Nat} (h : x % 2 ^ 16 = y % 2 ^ 16) (i : Nat) (hi : i < 16) :
    x.testBit i = y.testBit i := by
  have h1 := congrArg (fun z => Nat.testBit z i) h
  simp only [Nat.testBit_mod_two_pow, hi, decide_True, Bool.true_and] at h1
  exact h1

theorem low16_of_testBit {x y : Nat} (h : ∀ i, i < 16 → x.testBit i = y.testBit i) :
    x % 2 ^ 16 = y % 2 ^ 16 := by
  apply Nat.eq_of_testBit_eq
  intro i
  simp only [Nat.testBit_mod_two_pow]
  by_cases hi : i < 16
  · simp [hi, h i hi]
  · simp [hi]

theorem low16_xor {x y : Nat} (h : x % 2 ^ 16 = y % 2 ^ 16) (c : Nat) :
    (x ^^^ c) % 2 ^ 16 = (y ^^^ c) % 2 ^ 16 := by
  apply low16_of_testBit
  intro i hi
  simp only [Nat.testBit_xor, low16_testBit h i hi]

theorem and_8000_ne_zero (x : Nat) : (x &&& 0x8000 ≠ 0) ↔ x.testBit 15 = true := by
  have h : (0x8000 : Nat) = 2 ^ 15 := by norm_num
  rw [h, Nat.and_two_pow]
  cases x.testBit 15 <;> simp

theorem crcBit_low16 {x y : Nat} (h : x % 2 ^ 16 = y % 2 ^ 16) :
    crcBit x % 2 ^ 16 = xmodemBit y := by
  have hb : x.testBit 15 = y.testBit 15 := low16_testBit h 15 (by norm_num)
  have hm : (0xFFFF : Nat) = 2 ^ 16 - 1 := by norm_num
  have hs : ((x <<< 1) % 2 ^ 32) % 2 ^ 16 = (y <<< 1) &&& 0xFFFF := by
    rw [hm, Nat.and_pow_two_sub_one_eq_mod, Nat.shiftLeft_eq, Nat.shiftLeft_eq]
    omega
  have hlt : (y <<< 1) &&& 0xFFFF < 2 ^ 16 := by
    rw [hm, Nat.and_pow_two_sub_one_eq_mod]; exact Nat.mod_lt _ (by norm_num)
  unfold crcBit xmodemBit
  by_cases hx : x.testBit 15 = true
  · rw [if_pos ((and_8000_ne_zero x).2 hx), if_pos (hb ▸ hx)]
    have h1 : ((x <<< 1) % 2 ^ 32) % 2 ^ 16 = ((y <<< 1) &&& 0xFFFF) % 2 ^ 16 := by
      rw [hs, Nat.mod_eq_of_lt hlt]
    rw [low16_xor h1]
    exact Nat.mod_eq_of_lt (Nat.xor_lt_two_pow hlt (by norm_num))
  · rw [if_neg (fun hc => hx ((and_8000_ne_zero x).1 hc)), if_neg (hb ▸ hx)]
    exact hs

theorem xmodemBit_low16 (y : Nat) : xmodemBit y % 2 ^ 16 = xmodemBit y := by
  have := crcBit_low16 (rfl : y % 2 ^ 16 = y % 2 ^ 16)
  rw [← this, Nat.mod_mod]

theorem crcBits_low16 (n : Nat) {x y : Nat} (h : x % 2 ^ 16 = y % 2 ^ 16) :
    (crcBit^[n] x) % 2 ^ 16 = (xmodemBit^[n] y) % 2 ^ 16 := by
  induction n generalizing x y with
  | zero => simpa using h
  | succ n ih =>
    rw [Function.iterate_succ_apply, Function.iterate_succ_apply]
    apply ih
    rw [crcBit_low16 h, xmodemBit_low16]

theorem crcByte_low16 {x y : Nat} (h : x % 2 ^ 16 = y % 2 ^ 16) (b : Nat) :
    crcByte x b % 2 ^ 16 = xmodemByte y b % 2 ^ 16 :=
  crcBits_low16 8 (low16_xor h _)

theorem xmodemByte_low16 (y b : Nat) : xmodemByte y b % 2 ^ 16 = xmodemByte y b := by
  unfold xmodemByte
  rw [show (8 : Nat) = 7 + 1 from rfl, Function.iterate_succ_apply']
  exact xmodemBit_low16 _

theorem crc_fold_low16 (data : List Nat) {x y : Nat} (h : x % 2 ^ 16 = y % 2 ^ 16) :
    (data.foldl crcByte x) % 2 ^ 16 = (data.foldl xmodemByte y) % 2 ^ 16 := by
  induction data generalizing x y with
  | nil => simpa using h
  | cons b bs ih => exact ih (crcByte_low16 h b)

theorem xmodem_fold_low16 (data : List Nat) {y : Nat} (h : y % 2 ^ 16 = y) :
    (data.foldl xmodemByte y) % 2 ^ 16 = data.foldl xmodemByte y := by
  induction data generalizing y with
  | nil => simpa using h
  | cons b bs ih => exact ih (xmodemByte_low16 y b)

/-- C1: for every byte sequence, `crc16` (an unmasked 32-bit `int` truncated
on return) equals the CRC-16/XMODEM value computed with a register masked to
16 bits after every shift, and is a 16-bit value; `crc16` of the empty sequence
is `0` and `crc16` of the ASCII bytes `"123456789"` is `0x31C3`. -/
theorem crc16_eq_xmodem :
    (∀ data : List Nat, crc16 data = xmodem data ∧ crc16 data < 2 ^ 16) ∧
      crc16 [] = 0 ∧ crc16 (ascii "123456789") = 0x31C3 := by
  refine ⟨fun data => ⟨?_, Nat.mod_lt _ (by norm_num)⟩, by decide, by decide!⟩
  unfold crc16 xmodem
  rw [crc_fold_low16 data (rfl : 0 % 2 ^ 16 = 0 % 2 ^ 16)]
  exact xmodem_fold_low16 data (by norm_num)

/-! ## C `int` operators on small natural numbers -/

theorem toBits_natCast {n : Nat} (h : n < 2 ^ 32) : toBits (n : Int) = n := by
  unfold toBits
  have : ((n : Int) % 2 ^ 32) = (n : Int) := Int.emod_eq_of_lt (by omega) (by exact_mod_cast h)
  rw [this]; simp

theorem ofBits_natCast {n : Nat} (h : n < 2 ^ 31) : ofBits n = (n : Int) := by
  unfold ofBits; rw [if_pos h]

theorem intOr_natCast {a b : Nat} (ha : a < 2 ^ 31) (hb : b < 2 ^ 31) :
    intOr (a : Int) (b : Int) = ((a ||| b : Nat) : Int) := by
  unfold intOr
  rw [toBits_natCast (by omega), toBits_natCast (by omega),
    ofBits_natCast (Nat.or_lt_two_pow ha hb)]

theorem intAnd_natCast {a b : Nat} (ha : a < 2 ^ 31) (hb : b < 2 ^ 32) :
    intAnd (a : Int) (b : Int) = ((a &&& b : Nat) : Int) := by
  unfold intAnd
  rw [toBits_natCast (by omega), toBits_natCast hb,
    ofBits_natCast (lt_of_le_of_lt Nat.and_le_left ha)]

theorem intShl_natCast {a k : Nat} (h : a <<< k < 2 ^ 31) (ha : a < 2 ^ 32) :
    intShl (a : Int) k = ((a <<< k : Nat) : Int) := by
  unfold intShl
  rw [toBits_natCast ha, Nat.mod_eq_of_lt (by omega), ofBits_natCast h]

theorem intShr_natCast (a k : Nat) : intShr (a : Int) k = ((a >>> k : Nat) : Int) := by
  unfold intShr
  rw [Nat.shiftRight_eq_div_pow]
  norm_cast

/-! ## `getbyte` -/

theorem upperDigits_eq :
    upperDigits = [48, 49, 50, 51, 52, 53, 54, 55, 56, 57, 65, 66, 67, 68, 69, 70] := by
  decide

theorem lowerDigits_eq :
    lowerDigits = [48, 49, 50, 51, 52, 53, 54, 55, 56, 57, 97, 98, 99, 100, 101, 102] := by
  decide

theorem hexVal_eq (c : Nat) : hexVal c =
    if 48 ≤ c ∧ c ≤ 57 then some (c - 48)
    else if 65 ≤ c ∧ c ≤ 70 then some (c - 55)
    else if 97 ≤ c ∧ c ≤ 102 then some (c - 87) else none := by
  by_cases hc : c < 103
  · revert c
    decide
  · have h1 : c ∉ upperDigits := by
      rw [upperDigits_eq]
      simp only [List.mem_cons, List.mem_singleton, List.not_mem_nil, or_false]; omega
    have h2 : c ∉ lowerDigits := by
      rw [lowerDigits_eq]
      simp only [List.mem_cons, List.mem_singleton, List.not_mem_nil, or_false]; omega
    unfold hexVal
    rw [if_neg h1, if_neg h2, if_neg (by omega), if_neg (by omega), if_neg (by omega)]

theorem hexDigit_of_hexVal {c v : Nat} (h : hexVal c = some v) :
    hexDigit c = (v : Int) ∧ v < 16 := by
  rw [hexVal_eq] at h
  unfold hexDigit
  split_ifs at h ⊢ <;> simp at h <;> omega

theorem hexDigit_of_hexVal_none {c : Nat} (h : hexVal c = none) : hexDigit c = -1 := by
  rw [hexVal_eq] at h
  unfold hexDigit
  split_ifs at h ⊢
  rfl

theorem getbyte_ok {line : List Nat} {p h l : Nat} (hh : hexVal (charAt line p) = some h)
    (hl : hexVal (charAt line (p + 1)) = some l) :
    getbyte line p = (((16 * h + l : Nat) : Int), p + 2) ∧ 16 * h + l ≤ 255 := by
  obtain ⟨e1, b1⟩ := hexDigit_of_hexVal hh
  obtain ⟨e2, b2⟩ := hexDigit_of_hexVal hl
  refine ⟨?_, by omega⟩
  unfold getbyte
  simp only [e1, e2]
  rw [if_neg (by omega), if_neg (by omega)]
  have hs : h <<< 4 = 16 * h := by rw [Nat.shiftLeft_eq]; omega
  rw [intShl_natCast (by omega) (by omega), intOr_natCast (by omega) (by omega), hs]
  have : 16 * h ||| l = 16 * h + l := (Nat.mul_add_lt_is_or (i := 4) (by simpa using b2) h).symm
  rw [this]

theorem getbyte_bad {line : List Nat} {p : Nat}
    (h : hexVal (charAt line p) = none ∨ hexVal (charAt line (p + 1)) = none) :
    getbyte line p = (-1, p) := by
  unfold getbyte
  rcases h with h | h
  · simp [hexDigit_of_hexVal_none h]
  · simp only [hexDigit_of_hexVal_none h]
    split_ifs <;> first | rfl | omega

theorem hexByte_vals : ∀ b, b < 256 →
    hexVal ((hexByte b).getD 0 0) = some (b / 16) ∧
    hexVal ((hexByte b).getD 1 0) = some (b % 16) ∧
    hexVal ((hexByteLower b).getD 0 0) = some (b / 16) ∧
    hexVal ((hexByteLower b).getD 1 0) = some (b % 16) := by
  decide!

theorem getbyte_cases (line : List Nat) (p : Nat) :
    getbyte line p = (-1, p) ∨ ∃ b : Nat, b ≤ 255 ∧ getbyte line p = ((b : Int), p + 2) := by
  cases hh : hexVal (charAt line p) with
  | none => exact Or.inl (getbyte_bad (Or.inl hh))
  | some h =>
    cases hl : hexVal (charAt line (p + 1)) with
    | none => exact Or.inl (getbyte_bad (Or.inr hl))
    | some l => exact Or.inr ⟨16 * h + l, (getbyte_ok hh hl).2, (getbyte_ok hh hl).1⟩

/-- C8: when the two characters at the cursor are hexadecimal digits (of
either case) with values `h` and `l`, `getbyte` returns `16 * h + l`, a value
in `0..255`, and advances the cursor by 2; when either character is anything
else (the string terminator and the newline included) it returns `-1` and
leaves the cursor where it was; applied to the upper-case or lower-case
two-digit rendering of a byte `b` it returns `b`. -/
theorem getbyte_spec :
    (∀ (line : List Nat) (p h l : Nat), hexVal (charAt line p) = some h →
      hexVal (charAt line (p + 1)) = some l →
      getbyte line p = (((16 * h + l : Nat) : Int), p + 2) ∧ 16 * h + l ≤ 255) ∧
    (∀ (line : List Nat) (p : Nat),
      hexVal (charAt line p) = none ∨ hexVal (charAt line (p + 1)) = none →
      getbyte line p = (-1, p)) ∧
    hexVal 0 = none ∧ hexVal 10 = none ∧
    (∀ c : Nat, (hexVal c).isSome ↔
      (48 ≤ c ∧ c ≤ 57) ∨ (65 ≤ c ∧ c ≤ 70) ∨ (97 ≤ c ∧ c ≤ 102)) ∧
    (∀ b : Nat, b < 256 →
      getbyte (hexByte b) 0 = ((b : Int), 2) ∧ getbyte (hexByteLower b) 0 = ((b : Int), 2)) := by
  refine ⟨fun line p h l hh hl => getbyte_ok hh hl, fun line p h => getbyte_bad h,
    by decide, by decide, ?_, ?_⟩
  · intro c
    rw [hexVal_eq]
    split_ifs <;> simp <;> omega
  · intro b hb
    obtain ⟨h1, h2, h3, h4⟩ := hexByte_vals b hb
    have e : 16 * (b / 16) + b % 16 = b := by omega
    constructor
    · have := (@getbyte_ok (hexByte b) 0 _ _ h1 h2).1
      rwa [e] at this
    · have := (@getbyte_ok (hexByteLower b) 0 _ _ h3 h4).1
      rwa [e] at this

/-- Witness of C8 on the text `fF`, on the text `1g` and on the empty line. -/
theorem getbyte_spec_witness :
    (getbyte (ascii "fF") 0 = (((16 * 15 + 15 : Nat) : Int), 0 + 2) ∧ 16 * 15 + 15 ≤ 255) ∧
    getbyte (ascii "1g") 0 = (-1, 0) ∧ getbyte [] 0 = (-1, 0) ∧
    getbyte (hexByte 0xA5) 0 = (((0xA5 : Nat) : Int), 2) :=
  ⟨getbyte_spec.1 (ascii "fF") 0 15 15 (by decide) (by decide),
   getbyte_spec.2.1 (ascii "1g") 0 (Or.inr (by decide)),
   getbyte_spec.2.1 [] 0 (Or.inl (by decide)),
   (getbyte_spec.2.2.2.2.2 0xA5 (by decide)).1⟩

/-! ## `fgets` and the lines of a file -/

theorem fgetsAux_append (k : Nat) (f : List Nat) : (fgetsAux k f).1 ++ (fgetsAux k f).2 = f := by
  induction k generalizing f with
  | zero => simp [fgetsAux]
  | succ k ih =>
    cases f with
    | nil => simp [fgetsAux]
    | cons c f =>
      unfold fgetsAux
      split_ifs with hc
      · simp
      · simpa using ih f

theorem fgetsAux_length_le (k : Nat) (f : List Nat) : (fgetsAux k f).1.length ≤ k := by
  induction k generalizing f with
  | zero => simp [fgetsAux]
  | succ k ih =>
    cases f with
    | nil => simp [fgetsAux]
    | cons c f =>
      unfold fgetsAux
      split_ifs with hc
      · simp
      · simpa using ih f

theorem fgetsAux_ne_nil (k : Nat) (c : Nat) (f : List Nat) :
    (fgetsAux (k + 1) (c :: f)).1 ≠ [] := by
  unfold fgetsAux
  split_ifs <;> simp

theorem fgets_some {f l r : List Nat} (h : fgets 80 f = some (l, r)) :
    l ++ r = f ∧ l ≠ [] ∧ l.length ≤ 79 ∧ r.length < f.length := by
  unfold fgets at h
  split_ifs at h with hf
  simp only [Option.some.injEq] at h
  have h1 := fgetsAux_append (80 - 1) f
  have h2 := fgetsAux_length_le (80 - 1) f
  have h3 : (fgetsAux (80 - 1) f).1 ≠ [] := by
    cases f with
    | nil => exact absurd rfl hf
    | cons c f => exact fgetsAux_ne_nil 78 c f
  rw [h] at h1 h2 h3
  simp only at h1 h2 h3
  refine ⟨h1, h3, h2, ?_⟩
  have hl : 0 < l.length := List.length_pos.mpr h3
  rw [← h1, List.length_append]
  omega

theorem fgets_nil : fgets 80 [] = none := rfl

theorem readLines_fuel (n m : Nat) (f : List Nat) (hn : f.length ≤ n) (hm : f.length ≤ m) :
    readLines n f = readLines m f := by
  induction n generalizing m f with
  | zero =>
    have hf : f = [] := List.length_eq_zero.mp (by omega)
    subst hf
    cases m <;> simp [readLines, fgets_nil]
  | succ n ih =>
    cases m with
    | zero =>
      have hf : f = [] := List.length_eq_zero.mp (by omega)
      subst hf
      simp [readLines, fgets_nil]
    | succ m =>
      unfold readLines
      cases hg : fgets 80 f with
      | none => rfl
      | some lr =>
        obtain ⟨l, r⟩ := lr
        have hr := (fgets_some hg).2.2.2
        simp only
        rw [ih m r (by omega) (by omega)]

theorem lines_nil : lines [] = [] := rfl

theorem lines_of_fgets {f l r : List Nat} (h : fgets 80 f = some (l, r)) :
    lines f = l :: lines r := by
  have hr := (fgets_some h).2.2.2
  unfold lines
  obtain ⟨n, hn⟩ : ∃ n, f.length = n + 1 := ⟨f.length - 1, by omega⟩
  have key : readLines (n + 1) f = l :: readLines n r := by simp only [readLines, h]
  rw [hn, key, readLines_fuel n r.length r (by omega) (le_refl _)]

theorem fgetsAux_line {k : Nat} {line rest : List Nat} (h10 : 10 ∉ line)
    (hl : line.length < k) : fgetsAux k (line ++ 10 :: rest) = (line ++ [10], rest) := by
  induction line generalizing k with
  | nil =>
    obtain ⟨k, rfl⟩ : ∃ j, k = j + 1 := ⟨k - 1, by simp at hl; omega⟩
    simp [fgetsAux]
  | cons c line ih =>
    obtain ⟨k, rfl⟩ : ∃ j, k = j + 1 := ⟨k - 1, by simp at hl; omega⟩
    have hc : c ≠ 10 := fun e => h10 (by simp [e])
    have h10b : 10 ∉ line := fun e => h10 (List.mem_cons_of_mem _ e)
    have hl2 : line.length < k := by simp at hl; omega
    show fgetsAux (k + 1) (c :: (line ++ 10 :: rest)) = (c :: (line ++ [10]), rest)
    have key : fgetsAux (k + 1) (c :: (line ++ 10 :: rest)) =
        ((fgetsAux k (line ++ 10 :: rest)).1.cons c, (fgetsAux k (line ++ 10 :: rest)).2) := by
      simp only [fgetsAux, if_neg hc]
    rw [key, ih h10b hl2]

theorem lines_line_cons {line rest : List Nat} (h10 : 10 ∉ line) (hl : line.length ≤ 78) :
    lines (line ++ 10 :: rest) = (line ++ [10]) :: lines rest := by
  apply lines_of_fgets
  unfold fgets
  rw [if_neg (by simp), fgetsAux_line h10 (by omega)]

/-! ## The loop and the lines -/

theorem hexLoop_eq_hexLines (n : Nat) (f : List Nat) (bank : Int) (fwbuf : List Nat) :
    hexLoop n f bank fwbuf =
      match hexLines (readLines n f) bank fwbuf with
      | .next b fw => .ok (b, fw)
      | .stop b fw => .ok (b, fw)
      | .fail e => .error e := by
  induction n generalizing f bank fwbuf with
  | zero => simp [hexLoop, readLines, hexLines]
  | succ n ih =>
    unfold hexLoop readLines
    cases hg : fgets 80 f with
    | none => simp [hexLines]
    | some lr =>
      obtain ⟨l, r⟩ := lr
      simp only [hexLines]
      cases hl : hexLine l bank fwbuf with
      | next b fw => simp only [ih]
      | stop b fw => rfl
      | fail e => rfl

/-- The fuel of `hexLoop` is never exhausted before the end of the file: any
fuel of at least the length of the stream gives the same result. -/
theorem hexLoop_fuel (n : Nat) (f : List Nat) (bank : Int) (fwbuf : List Nat)
    (h : f.length ≤ n) : hexLoop n f bank fwbuf = hexLoop f.length f bank fwbuf := by
  rw [hexLoop_eq_hexLines, hexLoop_eq_hexLines, readLines_fuel n f.length f h (le_refl _)]

/-- The loop of `hexLoop` unfolds as the `while` loop of the source does. -/
theorem hexLoop_unfold (f : List Nat) (bank : Int) (fwbuf : List Nat) :
    hexLoop f.length f bank fwbuf =
      match fgets 80 f with
      | none => .ok (bank, fwbuf)
      | some (line, rest) =>
        match hexLine line bank fwbuf with
        | .next bank fwbuf => hexLoop rest.length rest bank fwbuf
        | .stop bank fwbuf => .ok (bank, fwbuf)
        | .fail e => .error e := by
  cases hg : fgets 80 f with
  | none =>
    cases hf : f.length with
    | zero => rfl
    | succ n => unfold hexLoop; rw [hg]
  | some lr =>
    obtain ⟨l, r⟩ := lr
    have hr := (fgets_some hg).2.2.2
    obtain ⟨n, hn⟩ : ∃ n, f.length = n + 1 := ⟨f.length - 1, by omega⟩
    have key : hexLoop (n + 1) f bank fwbuf =
        match hexLine l bank fwbuf with
        | .next bank fwbuf => hexLoop n r bank fwbuf
        | .stop bank fwbuf => .ok (bank, fwbuf)
        | .fail e => .error e := by
      simp only [hexLoop, hg]
    rw [hn, key]
    dsimp only
    cases hexLine l bank fwbuf with
    | next b fw => exact hexLoop_fuel n r b fw (by omega)
    | stop b fw => rfl
    | fail e => rfl

theorem hexDecode_eq (f : List Nat) :
    hexDecode f = afterLoop (hexLines (lines f) 0 blankImage) := by
  unfold hexDecode
  rw [hexLoop_eq_hexLines]
  unfold lines blankImage
  cases hexLines (readLines f.length f) 0 (List.replicate FLASHSIZE 0xff) <;> rfl

theorem loadfirmware_hex {f : List Nat} (h : f.length ≠ FLASHSIZE) :
    loadfirmware f = afterLoop (hexLines (lines f) 0 blankImage) := by
  unfold loadfirmware
  rw [if_neg h, hexDecode_eq]

theorem hexLines_append (xs ys : List (List Nat)) (bank : Int) (fwbuf : List Nat) :
    hexLines (xs ++ ys) bank fwbuf =
      match hexLines xs bank fwbuf with
      | .next b fw => hexLines ys b fw
      | r => r := by
  induction xs generalizing bank fwbuf with
  | nil => simp [hexLines]
  | cons x xs ih =>
    have key : ∀ zs, hexLines (x :: zs) bank fwbuf =
        match hexLine x bank fwbuf with
        | .next b fw => hexLines zs b fw
        | r => r := fun zs => by
      simp only [hexLines]
    rw [List.cons_append, key, key]
    cases hexLine x bank fwbuf with
    | next b fw => exact ih b fw
    | stop b fw => rfl
    | fail e => rfl

theorem hexLines_reaches {f line : List Nat} {bank : Int} {fwbuf : List Nat}
    (h : ReachesLine f line bank fwbuf) :
    ∃ rest, hexLines (lines f) 0 blankImage =
      match hexLine line bank fwbuf with
      | .next b fw => hexLines rest b fw
      | r => r := by
  obtain ⟨before, after, hl, hb⟩ := h
  refine ⟨after, ?_⟩
  rw [hl, hexLines_append, hb]
  simp only [hexLines]

theorem loadfirmware_of_fail {f line : List Nat} {bank : Int} {fwbuf : List Nat} {e : FwError}
    (hf : f.length ≠ FLASHSIZE) (h : ReachesLine f line bank fwbuf)
    (hl : hexLine line bank fwbuf = .fail e) : loadfirmware f = .error e := by
  obtain ⟨rest, hr⟩ := hexLines_reaches h
  rw [loadfirmware_hex hf, hr, hl]
  rfl

/-! ## Sentinel lines -/

theorem charAt_append_left {a : List Nat} (b : List Nat) {p : Nat} (h : p < a.length) :
    charAt (a ++ b) p = charAt a p := by
  unfold charAt
  exact List.getD_append _ _ _ _ h

theorem getbyte_append_left {a : List Nat} (b : List Nat) {p : Nat} (h : p + 1 < a.length) :
    getbyte (a ++ b) p = getbyte a p := by
  unfold getbyte
  rw [charAt_append_left b (by omega : p < a.length), charAt_append_left b h]

theorem strncmpEq_iff (n : Nat) (s t : List Nat) (ht : t.length = n) (hz : ∀ c ∈ t, c ≠ 0) :
    strncmpEq n s t = true ↔ ∃ tail, s = t ++ tail := by
  induction n generalizing s t with
  | zero =>
    have : t = [] := List.length_eq_zero.mp ht
    subst this
    simp [strncmpEq]
  | succ n ih =>
    cases t with
    | nil => simp at ht
    | cons c t =>
      have hc : c ≠ 0 := hz c (by simp)
      have hz2 : ∀ d ∈ t, d ≠ 0 := fun d hd => hz d (List.mem_cons_of_mem _ hd)
      have ht2 : t.length = n := by simpa using ht
      cases s with
      | nil =>
        have h0 : (0 : Nat) ≠ c := fun e => hc e.symm
        simp [strncmpEq, h0]
      | cons a s =>
        by_cases hac : a = c
        · subst hac
          simp only [strncmpEq, List.headD_cons, ne_eq, not_true_eq_false, if_false, if_neg hc,
            List.tail_cons, ih s t ht2 hz2, List.cons_append, List.cons.injEq, true_and]
        · have : ¬ ∃ tail, a :: s = c :: t ++ tail := by
            rintro ⟨tail, h⟩
            simp only [List.cons_append, List.cons.injEq] at h
            exact hac h.1
          simp [strncmpEq, hac, this]

theorem bankSwitch_ascii :
    ascii ":00000155AA" = [58, 48, 48, 48, 48, 48, 49, 53, 53, 65, 65] := by decide

theorem eof_ascii :
    ascii ":00000001FF" = [58, 48, 48, 48, 48, 48, 48, 48, 49, 70, 70] := by decide

theorem isBankSwitch_iff (line : List Nat) :
    isBankSwitch line = true ↔ ∃ tail, line = ascii ":00000155AA" ++ tail := by
  unfold isBankSwitch
  apply strncmpEq_iff
  · decide
  · decide

theorem isEof_iff (line : List Nat) :
    isEof line = true ↔ ∃ tail, line = ascii ":00000001FF" ++ tail := by
  unfold isEof
  apply strncmpEq_iff
  · decide
  · decide

theorem isBankSwitch_of_isEof {line : List Nat} (h : isEof line = true) :
    isBankSwitch line = false := by
  obtain ⟨t1, h1⟩ := (isEof_iff line).1 h
  cases hb : isBankSwitch line with
  | false => rfl
  | true =>
    obtain ⟨t2, h2⟩ := (isBankSwitch_iff line).1 hb
    rw [h1, eof_ascii, bankSwitch_ascii] at h2
    simp at h2

/-- The value of `hexLine` once the four header bytes have been read. -/
theorem hexLine_of_header {line : List Nat} {bank : Int} {fwbuf : List Nat}
    {len hi lo type : Int} {p1 p2 p3 p4 : Nat} (h0 : charAt line 0 = 58)
    (h1 : getbyte line 1 = (len, p1)) (h2 : getbyte line p1 = (hi, p2))
    (h3 : getbyte line p2 = (lo, p3)) (h4 : getbyte line p3 = (type, p4)) :
    hexLine line bank fwbuf =
      if len < 0 ∨ intOr (intShl hi 8) lo < 0 ∨ type < 0 ∨ (type ≠ 0 ∧ len ≠ 0) then
        .fail (.malformedLine (cstr line))
      else if len = 0 then
        if isBankSwitch line then
          if bank + 1 ≥ 16 then .fail .tooLarge else .next (bank + 1) fwbuf
        else if isEof line then .stop bank fwbuf
        else .fail (.malformedLine (cstr line))
      else
        match payloadLoop len.toNat line p4 bank (intOr (intShl hi 8) lo)
            (intAnd (len + intShr (intOr (intShl hi 8) lo) 8 +
              intAnd (intOr (intShl hi 8) lo) 0xff) 0xff) fwbuf with
        | none => .fail (.shortLine (cstr line))
        | some (p, hexsum, fw) =>
          if intAnd (0x100 - hexsum) 0xff ≠ (getbyte line p).1 then
            .fail (.checksumMismatch (cstr line))
          else .next bank fw := by
  unfold hexLine isBankSwitch isEof
  rw [if_neg (by simp [h0])]
  simp only [h1, h2, h3, h4]

theorem hexLine_bankSwitch {line : List Nat} (h : isBankSwitch line = true) (bank : Int)
    (fwbuf : List Nat) :
    hexLine line bank fwbuf =
      if bank + 1 ≥ 16 then .fail .tooLarge else .next (bank + 1) fwbuf := by
  obtain ⟨tail, rfl⟩ := (isBankSwitch_iff line).1 h
  have h0 : charAt (ascii ":00000155AA" ++ tail) 0 = 58 := by
    rw [charAt_append_left tail (by decide)]; decide
  have h1 : getbyte (ascii ":00000155AA" ++ tail) 1 = (0, 3) := by
    rw [getbyte_append_left tail (by decide)]; decide
  have h2 : getbyte (ascii ":00000155AA" ++ tail) 3 = (0, 5) := by
    rw [getbyte_append_left tail (by decide)]; decide
  have h3 : getbyte (ascii ":00000155AA" ++ tail) 5 = (1, 7) := by
    rw [getbyte_append_left tail (by decide)]; decide
  have h4 : getbyte (ascii ":00000155AA" ++ tail) 7 = (0x55, 9) := by
    rw [getbyte_append_left tail (by decide)]; decide
  rw [hexLine_of_header h0 h1 h2 h3 h4, h]
  have e : intOr (intShl 0 8) 1 = 1 := by decide
  rw [e]
  simp

theorem hexLine_eof {line : List Nat} (h : isEof line = true) (bank : Int)
    (fwbuf : List Nat) : hexLine line bank fwbuf = .stop bank fwbuf := by
  have hb := isBankSwitch_of_isEof h
  obtain ⟨tail, rfl⟩ := (isEof_iff line).1 h
  have h0 : charAt (ascii ":00000001FF" ++ tail) 0 = 58 := by
    rw [charAt_append_left tail (by decide)]; decide
  have h1 : getbyte (ascii ":00000001FF" ++ tail) 1 = (0, 3) := by
    rw [getbyte_append_left tail (by decide)]; decide
  have h2 : getbyte (ascii ":00000001FF" ++ tail) 3 = (0, 5) := by
    rw [getbyte_append_left tail (by decide)]; decide
  have h3 : getbyte (ascii ":00000001FF" ++ tail) 5 = (0, 7) := by
    rw [getbyte_append_left tail (by decide)]; decide
  have h4 : getbyte (ascii ":00000001FF" ++ tail) 7 = (1, 9) := by
    rw [getbyte_append_left tail (by decide)]; decide
  rw [hexLine_of_header h0 h1 h2 h3 h4, h, hb]
  have e : intOr (intShl 0 8) 0 = 0 := by decide
  rw [e]
  simp

/-! ## The outcome of a line and the bank counter -/

theorem hexLine_plain {line : List Nat} (hb : isBankSwitch line = false)
    (he : isEof line = false) (bank : Int) (fwbuf : List Nat) :
    (∃ e, hexLine line bank fwbuf = .fail e) ∨ ∃ fw, hexLine line bank fwbuf = .next bank fw := by
  by_cases h0 : charAt line 0 = 58
  · rcases h1 : getbyte line 1 with ⟨len, p1⟩
    rcases h2 : getbyte line p1 with ⟨hi, p2⟩
    rcases h3 : getbyte line p2 with ⟨lo, p3⟩
    rcases h4 : getbyte line p3 with ⟨type, p4⟩
    rw [hexLine_of_header h0 h1 h2 h3 h4, hb, he]
    simp only [Bool.false_eq_true, if_false]
    split_ifs
    · exact Or.inl ⟨_, rfl⟩
    · exact Or.inl ⟨_, rfl⟩
    · split
      · exact Or.inl ⟨_, rfl⟩
      · split_ifs
        · exact Or.inl ⟨_, rfl⟩
        · exact Or.inr ⟨_, rfl⟩
  · right
    refine ⟨fwbuf, ?_⟩
    unfold hexLine
    rw [if_pos h0]

theorem hexLine_stop_inv {line : List Nat} {bank b1 : Int} {fwbuf fw1 : List Nat}
    (h : hexLine line bank fwbuf = .stop b1 fw1) :
    isEof line = true ∧ b1 = bank ∧ fw1 = fwbuf := by
  cases he : isEof line with
  | true =>
    rw [hexLine_eof he] at h
    injection h with e1 e2
    exact ⟨rfl, e1.symm, e2.symm⟩
  | false =>
    cases hb : isBankSwitch line with
    | true =>
      rw [hexLine_bankSwitch hb] at h
      split_ifs at h
    | false =>
      rcases hexLine_plain hb he bank fwbuf with ⟨e, h2⟩ | ⟨fw, h2⟩ <;> rw [h2] at h <;>
        exact absurd h (by simp)

theorem hexLine_next_inv {line : List Nat} {bank b1 : Int} {fwbuf fw1 : List Nat}
    (h : hexLine line bank fwbuf = .next b1 fw1) :
    isEof line = false ∧ b1 = bank + (if isBankSwitch line then 1 else 0) ∧
      (isBankSwitch line = true → bank + 1 < 16 ∧ fw1 = fwbuf) := by
  cases he : isEof line with
  | true =>
    rw [hexLine_eof he] at h
    exact absurd h (by simp)
  | false =>
    refine ⟨rfl, ?_⟩
    cases hb : isBankSwitch line with
    | true =>
      rw [hexLine_bankSwitch hb] at h
      split_ifs at h with hc
      injection h with e1 e2
      exact ⟨by simp [e1], fun _ => ⟨by omega, e2.symm⟩⟩
    | false =>
      rcases hexLine_plain hb he bank fwbuf with ⟨e, h2⟩ | ⟨fw, h2⟩
      · rw [h2] at h
        exact absurd h (by simp)
      · rw [h2] at h
        injection h with e1 e2
        exact ⟨by simp [e1], fun hc => absurd hc (by simp)⟩

theorem hexLines_cons (l : List Nat) (ls : List (List Nat)) (bank : Int) (fwbuf : List Nat) :
    hexLines (l :: ls) bank fwbuf =
      match hexLine l bank fwbuf with
      | .next b fw => hexLines ls b fw
      | r => r := by
  simp only [hexLines]

/-- When the loop did not fail, the bank counter is the initial one plus the
number of bank-switch sentinels among the processed lines. -/
theorem hexLines_bank (ls : List (List Nat)) (bank b1 : Int) (fwbuf fw1 : List Nat)
    (h : hexLines ls bank fwbuf = .next b1 fw1 ∨ hexLines ls bank fwbuf = .stop b1 fw1) :
    b1 = bank + ((processed ls).countP isBankSwitch : Nat) := by
  induction ls generalizing bank fwbuf with
  | nil =>
    simp only [hexLines] at h
    rcases h with h | h
    · injection h with e1 e2
      simp [processed, e1]
    · exact absurd h (by simp)
  | cons l ls ih =>
    rw [hexLines_cons] at h
    cases hl : hexLine l bank fwbuf with
    | next b fw =>
      rw [hl] at h
      obtain ⟨he, hb, -⟩ := hexLine_next_inv hl
      have := ih b fw h
      rw [this, hb]
      simp only [processed, he, Bool.false_eq_true, if_false, List.countP_cons]
      cases isBankSwitch l
      · simp
      · simp
        omega
    | stop b fw =>
      rw [hl] at h
      obtain ⟨he, hb, -⟩ := hexLine_stop_inv hl
      rcases h with h | h
      · exact absurd h (by simp)
      · injection h with e1 e2
        simp [processed, he, isBankSwitch_of_isEof he, ← e1, hb]
    | fail e =>
      rw [hl] at h
      rcases h with h | h <;> exact absurd h (by simp)

theorem hexLines_no_eof (ls : List (List Nat)) (bank : Int) (fwbuf : List Nat)
    (h : ∀ l ∈ ls, isEof l = false) :
    (∃ e, hexLines ls bank fwbuf = .fail e) ∨ ∃ b fw, hexLines ls bank fwbuf = .next b fw := by
  induction ls generalizing bank fwbuf with
  | nil => exact Or.inr ⟨bank, fwbuf, rfl⟩
  | cons l ls ih =>
    rw [hexLines_cons]
    cases hl : hexLine l bank fwbuf with
    | next b fw => exact ih b fw (fun x hx => h x (List.mem_cons_of_mem _ hx))
    | stop b fw =>
      have := (hexLine_stop_inv hl).1
      rw [h l (by simp)] at this
      exact absurd this (by simp)
    | fail e => exact Or.inl ⟨e, rfl⟩

theorem processed_no_eof (ls : List (List Nat)) (h : ∀ l ∈ ls, isEof l = false) :
    processed ls = ls := by
  induction ls with
  | nil => rfl
  | cons l ls ih =>
    simp only [processed, h l (by simp), Bool.false_eq_true, if_false]
    rw [ih (fun x hx => h x (List.mem_cons_of_mem _ hx))]

/-! ## C7: the binary fast path -/

/-- C7: a source of exactly `FLASHSIZE` bytes is returned byte for byte,
whatever its bytes are; for a source of any other length the result is the
result of the hex-record decoder on that source. -/
theorem loadfirmware_binary_path :
    (∀ f : List Nat, f.length = FLASHSIZE → loadfirmware f = .ok f) ∧
    (∀ f : List Nat, f.length ≠ FLASHSIZE → loadfirmware f = hexDecode f) := by
  constructor
  · intro f hf
    have hread : fread FLASHSIZE f = f := by
      unfold fread
      rw [← hf, List.take_length]
    unfold loadfirmware
    rw [if_pos hf, hread, if_neg (by simp [hf])]
  · intro f hf
    unfold loadfirmware
    rw [if_neg hf]

/-- Witness of C7: `FLASHSIZE` colons are loaded verbatim; one colon more or
one colon less goes to the hex-record decoder. -/
theorem loadfirmware_binary_path_witness :
    loadfirmware (List.replicate FLASHSIZE 58) = .ok (List.replicate FLASHSIZE 58) ∧
    loadfirmware (List.replicate (FLASHSIZE + 1) 58) =
      hexDecode (List.replicate (FLASHSIZE + 1) 58) ∧
    loadfirmware (List.replicate (FLASHSIZE - 1) 58) =
      hexDecode (List.replicate (FLASHSIZE - 1) 58) :=
  ⟨loadfirmware_binary_path.1 _ (List.length_replicate _ _),
   loadfirmware_binary_path.2 _ (by rw [List.length_replicate]; decide),
   loadfirmware_binary_path.2 _ (by rw [List.length_replicate]; decide)⟩

/-! ## C5 and C6: the end of the input and the bank counter -/

theorem hexLines_next_no_eof (ls : List (List Nat)) (bank b1 : Int) (fwbuf fw1 : List Nat)
    (h : hexLines ls bank fwbuf = .next b1 fw1) : ∀ l ∈ ls, isEof l = false := by
  induction ls generalizing bank fwbuf with
  | nil => simp
  | cons l ls ih =>
    rw [hexLines_cons] at h
    cases hl : hexLine l bank fwbuf with
    | next b fw =>
      rw [hl] at h
      intro x hx
      rcases List.mem_cons.1 hx with rfl | hx
      · exact (hexLine_next_inv hl).1
      · exact ih b fw h x hx
    | stop b fw => rw [hl] at h; exact absurd h (by simp)
    | fail e => rw [hl] at h; exact absurd h (by simp)

theorem hexLines_next_bank {ls : List (List Nat)} {bank b1 : Int} {fwbuf fw1 : List Nat}
    (h : hexLines ls bank fwbuf = .next b1 fw1) :
    b1 = bank + (ls.countP isBankSwitch : Nat) := by
  have := hexLines_bank ls bank b1 fwbuf fw1 (Or.inl h)
  rwa [processed_no_eof ls (hexLines_next_no_eof ls bank b1 fwbuf fw1 h)] at this

theorem hexLines_bankSwitches (n : Nat) (line : List Nat) (hl : isBankSwitch line = true)
    (bank : Int) (fwbuf : List Nat) (h : bank + n < 16) :
    hexLines (List.replicate n line) bank fwbuf = .next (bank + n) fwbuf := by
  induction n generalizing bank with
  | zero => simp [hexLines]
  | succ n ih =>
    rw [List.replicate_succ, hexLines_cons, hexLine_bankSwitch hl,
      if_neg (by push_cast at h; omega)]
    simp only
    rw [ih (bank + 1) (by push_cast at h ⊢; omega)]
    push_cast
    rw [add_assoc, add_comm 1 (n : Int)]

theorem bankSwitch_nl : isBankSwitch (ascii ":00000155AA\n") = true := by decide

theorem eof_nl : isEof (ascii ":00000001FF\n") = true := by decide

theorem lines_fifteen :
    lines (repeatLines 15 (ascii ":00000155AA\n")) =
      List.replicate 15 (ascii ":00000155AA\n") := by decide!

theorem loadfirmware_fifteen :
    loadfirmware (repeatLines 15 (ascii ":00000155AA\n")) = .ok blankImage := by
  rw [loadfirmware_hex (by decide!), lines_fifteen,
    hexLines_bankSwitches 15 _ bankSwitch_nl 0 blankImage (by decide!)]
  rfl

/-- C5, counterexample: the file of fifteen bank-switch sentinel lines has
no end-of-file sentinel line, is not of size `FLASHSIZE`, and is decoded
successfully into the blank image. -/
theorem eof_sentinel_not_required :
    (∀ l ∈ lines (repeatLines 15 (ascii ":00000155AA\n")), isEof l = false) ∧
    (repeatLines 15 (ascii ":00000155AA\n")).length ≠ FLASHSIZE ∧
    loadfirmware (repeatLines 15 (ascii ":00000155AA\n")) = .ok blankImage :=
  ⟨by decide!, by decide!, loadfirmware_fifteen⟩

/-- C5, amended: for an input of size other than `FLASHSIZE` none of whose
lines is the end-of-file sentinel, the decode fails whenever the number of
bank-switch sentinel lines differs from 15; when it is 15 and no line fails,
the end of the input is accepted and the image is returned. -/
theorem no_eof_sentinel_outcome (f : List Nat) (hf : f.length ≠ FLASHSIZE)
    (hne : ∀ l ∈ lines f, isEof l = false) :
    ((lines f).countP isBankSwitch ≠ 15 → ∃ e, loadfirmware f = .error e) ∧
    ((lines f).countP isBankSwitch = 15 →
      (∀ e, hexLines (lines f) 0 blankImage ≠ .fail e) → ∃ img, loadfirmware f = .ok img) := by
  rw [loadfirmware_hex hf]
  rcases hexLines_no_eof (lines f) 0 blankImage hne with ⟨e, he⟩ | ⟨b, fw, hb⟩
  · exact ⟨fun _ => ⟨e, by rw [he]; rfl⟩, fun _ hn => absurd he (hn e)⟩
  · have hbank := hexLines_next_bank hb
    rw [hb]
    constructor
    · intro hc
      refine ⟨.tooSmall, ?_⟩
      have : b ≠ 15 := by rw [hbank]; omega
      simp [afterLoop, this]
    · intro hc _
      refine ⟨fw, ?_⟩
      have : b = 15 := by rw [hbank, hc]; rfl
      simp [afterLoop, this]

theorem lines_three :
    lines (repeatLines 3 (ascii ":00000155AA\n")) =
      List.replicate 3 (ascii ":00000155AA\n") := by decide!

/-- Witness of the amended C5: three bank-switch lines and no end-of-file
sentinel fail; fifteen are accepted. -/
theorem no_eof_sentinel_outcome_witness :
    (∃ e, loadfirmware (repeatLines 3 (ascii ":00000155AA\n")) = .error e) ∧
    (∃ img, loadfirmware (repeatLines 15 (ascii ":00000155AA\n")) = .ok img) :=
  ⟨(no_eof_sentinel_outcome (repeatLines 3 (ascii ":00000155AA\n")) (by decide!)
      (by decide!)).1 (by decide!),
   (no_eof_sentinel_outcome (repeatLines 15 (ascii ":00000155AA\n")) (by decide!)
      (by decide!)).2 (by decide!) (fun e => by
        rw [lines_fifteen, hexLines_bankSwitches 15 _ bankSwitch_nl 0 blankImage (by decide!)]
        simp)⟩

/-! ## C6: fifteen bank switches -/

/-- C6: when the hex decoder returns an image, exactly 15 bank-switch
sentinel lines are among the lines processed (the lines up to and including the
first end-of-file sentinel); an end-of-file sentinel reached after fewer than 15
bank-switch lines makes the decode fail with `Firmware file too small`, and a
bank-switch line reached after 15 bank-switch lines makes it fail with
`Firmware file larger than 1MB`. -/
theorem fifteen_bank_switches (f : List Nat) (hf : f.length ≠ FLASHSIZE) :
    (∀ img, loadfirmware f = .ok img →
      (processed (lines f)).countP isBankSwitch = 15) ∧
    (∀ before line after bank fwbuf, lines f = before ++ line :: after →
      hexLines before 0 blankImage = .next bank fwbuf → isEof line = true →
      before.countP isBankSwitch < 15 → loadfirmware f = .error .tooSmall) ∧
    (∀ before line after bank fwbuf, lines f = before ++ line :: after →
      hexLines before 0 blankImage = .next bank fwbuf → isBankSwitch line = true →
      before.countP isBankSwitch = 15 → loadfirmware f = .error .tooLarge) := by
  refine ⟨fun img himg => ?_, fun before line after bank fwbuf hl hb he hc => ?_,
    fun before line after bank fwbuf hl hb hs hc => ?_⟩
  · rw [loadfirmware_hex hf] at himg
    cases hr : hexLines (lines f) 0 blankImage with
    | next b fw =>
      rw [hr] at himg
      have hbank := hexLines_bank _ _ _ _ _ (Or.inl hr)
      by_cases h15 : b = 15
      · omega
      · simp [afterLoop, h15] at himg
    | stop b fw =>
      rw [hr] at himg
      have hbank := hexLines_bank _ _ _ _ _ (Or.inr hr)
      by_cases h15 : b = 15
      · omega
      · simp [afterLoop, h15] at himg
    | fail e =>
      rw [hr] at himg
      simp [afterLoop] at himg
  · have hbank := hexLines_next_bank hb
    rw [loadfirmware_hex hf, hl, hexLines_append, hb]
    simp only
    rw [hexLines_cons, hexLine_eof he]
    have h15 : bank ≠ 15 := by omega
    simp [afterLoop, h15]
  · have hbank := hexLines_next_bank hb
    rw [loadfirmware_hex hf, hl, hexLines_append, hb]
    simp only
    rw [hexLines_cons, hexLine_bankSwitch hs, if_pos (by omega)]
    rfl

theorem lines_fifteen_eof :
    lines (repeatLines 15 (ascii ":00000155AA\n") ++ ascii ":00000001FF\n") =
      List.replicate 15 (ascii ":00000155AA\n") ++ [ascii ":00000001FF\n"] := by decide!

theorem loadfirmware_fifteen_eof :
    loadfirmware (repeatLines 15 (ascii ":00000155AA\n") ++ ascii ":00000001FF\n") =
      .ok blankImage := by
  rw [loadfirmware_hex (by decide!), lines_fifteen_eof, hexLines_append,
    hexLines_bankSwitches 15 _ bankSwitch_nl 0 blankImage (by decide)]
  simp only
  rw [hexLines_cons, hexLine_eof eof_nl]
  rfl

/-- Witness of C6: fifteen bank-switch lines and the end-of-file sentinel are
decoded; the end-of-file sentinel alone is too small; sixteen bank-switch lines
are too large. -/
theorem fifteen_bank_switches_witness :
    (processed (lines (repeatLines 15 (ascii ":00000155AA\n") ++
      ascii ":00000001FF\n"))).countP isBankSwitch = 15 ∧
    loadfirmware (ascii ":00000001FF\n") = .error .tooSmall ∧
    loadfirmware (repeatLines 16 (ascii ":00000155AA\n")) = .error .tooLarge :=
  ⟨(fifteen_bank_switches _ (by decide!)).1 blankImage loadfirmware_fifteen_eof,
   (fifteen_bank_switches (ascii ":00000001FF\n") (by decide)).2.1 []
     (ascii ":00000001FF\n") [] 0 blankImage
     (by decide) rfl (by decide) (by decide),
   (fifteen_bank_switches (repeatLines 16 (ascii ":00000155AA\n")) (by decide!)).2.2
     (List.replicate 15 (ascii ":00000155AA\n")) (ascii ":00000155AA\n") [] 15 blankImage
     (by decide!) (hexLines_bankSwitches 15 _ bankSwitch_nl 0 blankImage (by decide))
     (by decide) (by decide)⟩

/-! ## Reading the bytes of a record -/

theorem bytesAt_cons {line : List Nat} {p b : Nat} {bs : List Nat}
    (h : BytesAt line p (b :: bs)) :
    getbyte line p = ((b : Int), p + 2) ∧ b < 256 ∧ BytesAt line (p + 2) bs := by
  obtain ⟨h1, h2, h3, h4⟩ := h
  refine ⟨?_, h3, h4⟩
  have := (getbyte_ok h1 h2).1
  rwa [show 16 * (b / 16) + b % 16 = b by omega] at this

theorem bytesAt_append {line : List Nat} {p : Nat} {xs ys : List Nat} :
    BytesAt line p (xs ++ ys) ↔ BytesAt line p xs ∧ BytesAt line (p + 2 * xs.length) ys := by
  induction xs generalizing p with
  | nil => simp [BytesAt]
  | cons x xs ih =>
    show (_ ∧ _ ∧ _ ∧ BytesAt line (p + 2) (xs ++ ys)) ↔
      ((_ ∧ _ ∧ _ ∧ BytesAt line (p + 2) xs) ∧ BytesAt line (p + 2 * (xs.length + 1)) ys)
    rw [ih, show p + 2 * (xs.length + 1) = p + 2 + 2 * xs.length by omega]
    tauto

theorem bytesAt_lt {line : List Nat} {p : Nat} {bs : List Nat} (h : BytesAt line p bs) :
    ∀ b ∈ bs, b < 256 := by
  induction bs generalizing p with
  | nil => simp
  | cons x xs ih =>
    intro b hb
    rcases List.mem_cons.1 hb with rfl | hb
    · exact h.2.2.1
    · exact ih h.2.2.2 b hb

theorem intAnd_ff (x : Nat) (hx : x < 2 ^ 31) : intAnd (x : Int) 0xff = ((x % 256 : Nat) : Int) := by
  have := @intAnd_natCast x 0xff hx (by norm_num)
  rw [show ((0xff : Nat) : Int) = 0xff by norm_num] at this
  rw [this, show (0xff : Nat) = 2 ^ 8 - 1 by norm_num, Nat.and_pow_two_sub_one_eq_mod]

/-- The payload loop on a line that holds the hexadecimal digits of `bs`. -/
theorem payloadLoop_bytesAt {line : List Nat} (bank : Int) (bs : List Nat) (q : Nat)
    (offset : Int) (hs : Nat) (fwbuf : List Nat) (h : BytesAt line q bs) (hhs : hs < 256) :
    payloadLoop bs.length line q bank offset (hs : Int) fwbuf =
      some (q + 2 * bs.length, (((hs + bs.sum) % 256 : Nat) : Int),
        writePayload bank bs offset fwbuf) := by
  induction bs generalizing q offset hs fwbuf with
  | nil =>
    simp [payloadLoop, writePayload, Nat.mod_eq_of_lt hhs]
  | cons b bs ih =>
    obtain ⟨hg, hb, hrest⟩ := bytesAt_cons h
    simp only [List.length_cons, payloadLoop, hg]
    rw [if_neg (by omega)]
    have e1 : ((hs : Int) + (b : Int)) = ((hs + b : Nat) : Int) := by push_cast; rfl
    rw [e1, intAnd_ff _ (by omega), ih (q + 2) (offset + 1) ((hs + b) % 256) _ hrest
      (Nat.mod_lt _ (by norm_num))]
    simp only [Int.toNat_ofNat, List.sum_cons, writePayload]
    rw [show q + 2 + 2 * bs.length = q + 2 * (bs.length + 1) by omega,
      show ((hs + b) % 256 + bs.sum) % 256 = (hs + (b + bs.sum)) % 256 by omega]

/-- The payload loop stops with `Short line` at the first byte position that
does not hold two hexadecimal digits. -/
theorem payloadLoop_short {line : List Nat} (bank : Int) (bs : List Nat) (n : Nat) (q : Nat)
    (offset : Int) (hs : Nat) (fwbuf : List Nat) (h : BytesAt line q bs) (hhs : hs < 256)
    (hn : bs.length < n) (hbad : (getbyte line (q + 2 * bs.length)).1 < 0) :
    payloadLoop n line q bank offset (hs : Int) fwbuf = none := by
  induction bs generalizing q offset hs fwbuf n with
  | nil =>
    obtain ⟨n, rfl⟩ : ∃ m, n = m + 1 := ⟨n - 1, by simp at hn; omega⟩
    simp only [List.length_nil, Nat.mul_zero, Nat.add_zero] at hbad
    simp only [payloadLoop]
    rw [if_pos hbad]
  | cons b bs ih =>
    obtain ⟨n, rfl⟩ : ∃ m, n = m + 1 := ⟨n - 1, by simp at hn; omega⟩
    obtain ⟨hg, hb, hrest⟩ := bytesAt_cons h
    simp only [payloadLoop, hg]
    rw [if_neg (by omega)]
    have e1 : ((hs : Int) + (b : Int)) = ((hs + b : Nat) : Int) := by push_cast; rfl
    rw [e1, intAnd_ff _ (by omega)]
    apply ih n (q + 2) _ ((hs + b) % 256) _ hrest (Nat.mod_lt _ (by norm_num))
    · simp at hn; omega
    · rwa [show q + 2 + 2 * bs.length = q + 2 * (b :: bs).length by simp; omega]

theorem offset_eq (hi lo : Nat) (hh : hi < 256) (hl : lo < 256) :
    intOr (intShl (hi : Int) 8) (lo : Int) = ((hi * 256 + lo : Nat) : Int) := by
  have hs : hi <<< 8 = 2 ^ 8 * hi := by rw [Nat.shiftLeft_eq]; ring
  rw [intShl_natCast (by rw [hs]; omega) (by omega), intOr_natCast (by rw [hs]; omega) (by omega),
    hs, ← Nat.mul_add_lt_is_or (by simpa using hl) hi]
  congr 1
  ring

theorem header_sum (len hi lo : Nat) (hlen : len < 256) (hh : hi < 256) (hl : lo < 256) :
    intAnd ((len : Int) + intShr ((hi * 256 + lo : Nat) : Int) 8 +
      intAnd ((hi * 256 + lo : Nat) : Int) 0xff) 0xff = (((len + hi + lo) % 256 : Nat) : Int) := by
  rw [intShr_natCast, intAnd_ff _ (by omega), Nat.shiftRight_eq_div_pow]
  have e1 : (hi * 256 + lo) / 2 ^ 8 = hi := by omega
  have e2 : (hi * 256 + lo) % 256 = lo := by omega
  rw [e1, e2]
  have e3 : ((len : Int) + (hi : Int) + (lo : Int)) = ((len + hi + lo : Nat) : Int) := by
    push_cast; rfl
  rw [e3, intAnd_ff _ (by omega)]

theorem final_sum (hs : Nat) (hhs : hs < 256) :
    intAnd (0x100 - (hs : Int)) 0xff = (((0x100 - hs) % 256 : Nat) : Int) := by
  have e : (0x100 - (hs : Int)) = ((0x100 - hs : Nat) : Int) := by omega
  rw [e, intAnd_ff _ (by omega)]

theorem lineChecksum_eq (len hi lo : Nat) (payload : List Nat) :
    lineChecksum len hi lo payload = (0x100 - (len + hi + lo + payload.sum) % 256) % 256 := by
  unfold lineChecksum
  rw [show (0xFF : Nat) = 2 ^ 8 - 1 by norm_num, Nat.and_pow_two_sub_one_eq_mod,
    Nat.and_pow_two_sub_one_eq_mod]

/-- The outcome of `hexLine` on a type-0 data record whose fields are all
present: the record is accepted exactly when its checksum byte is the
prescribed one. -/
theorem hexLine_record {line : List Nat} {hi lo c : Nat} {payload : List Nat}
    (h0 : charAt line 0 = 58)
    (h : BytesAt line 1 ([payload.length, hi, lo, 0] ++ payload ++ [c]))
    (hlen : 0 < payload.length) (bank : Int) (fwbuf : List Nat) :
    hexLine line bank fwbuf =
      if c = lineChecksum payload.length hi lo payload then
        .next bank (writePayload bank payload ((hi * 256 + lo : Nat) : Int) fwbuf)
      else .fail (.checksumMismatch (cstr line)) := by
  rw [bytesAt_append, bytesAt_append] at h
  obtain ⟨⟨hhead, hpay⟩, hc⟩ := h
  obtain ⟨g1, b1, hhead⟩ := bytesAt_cons hhead
  obtain ⟨g2, b2, hhead⟩ := bytesAt_cons hhead
  obtain ⟨g3, b3, hhead⟩ := bytesAt_cons hhead
  obtain ⟨g4, -, -⟩ := bytesAt_cons hhead
  obtain ⟨g5, b5, -⟩ := bytesAt_cons hc
  rw [hexLine_of_header h0 g1 g2 g3 g4, offset_eq hi lo b2 b3, header_sum _ hi lo b1 b2 b3]
  have hl0 : ((payload.length : Nat) : Int) ≠ 0 := by omega
  rw [if_neg (by
    rintro (hx | hx | hx | ⟨hx, -⟩)
    · omega
    · omega
    · exact absurd hx (by decide)
    · exact hx rfl), if_neg hl0]
  simp only [Int.toNat_ofNat]
  simp only [List.length_cons, List.length_nil] at hpay
  rw [payloadLoop_bytesAt bank payload _ _ _ fwbuf hpay (Nat.mod_lt _ (by norm_num))]
  simp only
  simp only [List.length_append, List.length_cons, List.length_nil] at g5
  rw [show 1 + 2 * (0 + 1 + 1 + 1 + 1 + payload.length) = 1 + 2 * (0 + 1 + 1 + 1 + 1) +
    2 * payload.length by omega] at g5
  rw [g5, final_sum _ (Nat.mod_lt _ (by norm_num)), lineChecksum_eq]
  have e : (0x100 - ((payload.length + hi + lo) % 256 + payload.sum) % 256) % 256 =
      (0x100 - (payload.length + hi + lo + payload.sum) % 256) % 256 := by omega
  simp only [e]
  by_cases hcc : c = (0x100 - (payload.length + hi + lo + payload.sum) % 256) % 256
  · rw [if_pos hcc, if_neg (by rw [← hcc]; simp)]
  · rw [if_neg hcc, if_pos (by
      intro hx
      exact hcc (by exact_mod_cast hx.symm))]

/-! ## Rendered records -/

theorem hexBytes_append (xs ys : List Nat) : hexBytes (xs ++ ys) = hexBytes xs ++ hexBytes ys := by
  induction xs with
  | nil => rfl
  | cons x xs ih =>
    show hexByte x ++ hexBytes (xs ++ ys) = (hexByte x ++ hexBytes xs) ++ hexBytes ys
    rw [ih, List.append_assoc]

theorem hexBytes_length (xs : List Nat) : (hexBytes xs).length = 2 * xs.length := by
  induction xs with
  | nil => rfl
  | cons x xs ih => simp only [hexBytes, hexByte, List.length_append, List.length_cons,
      List.length_nil, ih]; omega

theorem charAt_append_cons (a : List Nat) (x : Nat) (b : List Nat) :
    charAt (a ++ x :: b) a.length = x := by
  unfold charAt
  rw [List.getD_append_right _ _ _ _ (le_refl _)]
  simp

theorem bytesAt_hexBytes (a : List Nat) (bs : List Nat) (b : List Nat)
    (h : ∀ x ∈ bs, x < 256) : BytesAt (a ++ hexBytes bs ++ b) a.length bs := by
  induction bs generalizing a with
  | nil => trivial
  | cons x xs ih =>
    have hx : x < 256 := h x (by simp)
    obtain ⟨v1, v2, -, -⟩ := hexByte_vals x hx
    have e : a ++ hexBytes (x :: xs) ++ b =
        (a ++ [(hexByte x).getD 0 0, (hexByte x).getD 1 0]) ++ hexBytes xs ++ b := by
      simp [hexBytes, hexByte]
    have e1 : charAt (a ++ hexBytes (x :: xs) ++ b) a.length = (hexByte x).getD 0 0 := by
      have := charAt_append_cons a ((hexByte x).getD 0 0)
        ((hexByte x).getD 1 0 :: (hexBytes xs ++ b))
      rw [← this]
      simp [hexBytes, hexByte]
    have e2 : charAt (a ++ hexBytes (x :: xs) ++ b) (a.length + 1) = (hexByte x).getD 1 0 := by
      have := charAt_append_cons (a ++ [(hexByte x).getD 0 0]) ((hexByte x).getD 1 0)
        (hexBytes xs ++ b)
      rw [List.length_append, List.length_singleton] at this
      rw [← this]
      simp [hexBytes, hexByte]
    refine ⟨by rw [e1]; exact v1, by rw [e2]; exact v2, hx, ?_⟩
    have := ih (a ++ [(hexByte x).getD 0 0, (hexByte x).getD 1 0])
      (fun y hy => h y (List.mem_cons_of_mem _ hy))
    rw [← e] at this
    simpa using this

theorem sum_set (l : List Nat) (i v : Nat) (h : i < l.length) :
    (l.set i v).sum + l.getD i 0 = l.sum + v := by
  induction l generalizing i with
  | nil => simp at h
  | cons x xs ih =>
    cases i with
    | zero => simp; omega
    | succ i =>
      have := ih i (by simpa using h)
      simp only [List.set_cons_succ, List.sum_cons, List.getD_cons_succ]
      omega

/-! ## C3: the checksum of a data record -/

/-- C3: a line that holds all fields of a type-0 data record with a
non-empty payload is accepted (the loop goes on with the same bank) if and only
if its checksum byte `c` is the prescribed one; otherwise the line fails with
`Checksum mismatch` and so does the decode of every file that arrives at the
line; and a line that differs from an accepted one in the value of one payload
byte makes the decode fail with `Checksum mismatch`. -/
theorem checksum_acceptance (line : List Nat) (hi lo c : Nat) (payload : List Nat)
    (h0 : charAt line 0 = 58)
    (h : BytesAt line 1 ([payload.length, hi, lo, 0] ++ payload ++ [c]))
    (hlen : 0 < payload.length) :
    (∀ bank fwbuf, (∃ fw, hexLine line bank fwbuf = .next bank fw) ↔
      c = lineChecksum payload.length hi lo payload) ∧
    (c ≠ lineChecksum payload.length hi lo payload →
      (∀ bank fwbuf, hexLine line bank fwbuf = .fail (.checksumMismatch (cstr line))) ∧
      ∀ f bank fwbuf, f.length ≠ FLASHSIZE → ReachesLine f line bank fwbuf →
        loadfirmware f = .error (.checksumMismatch (cstr line))) ∧
    (c = lineChecksum payload.length hi lo payload →
      ∀ (i v : Nat) (mutated : List Nat), i < payload.length → v < 256 →
        v ≠ payload.getD i 0 → charAt mutated 0 = 58 →
        BytesAt mutated 1 ([payload.length, hi, lo, 0] ++ payload.set i v ++ [c]) →
        ∀ f bank fwbuf, f.length ≠ FLASHSIZE → ReachesLine f mutated bank fwbuf →
          loadfirmware f = .error (.checksumMismatch (cstr mutated))) := by
  refine ⟨fun bank fwbuf => ?_, fun hc => ?_, fun hc i v mutated hi2 hv hne hm0 hm => ?_⟩
  · rw [hexLine_record h0 h hlen]
    constructor
    · rintro ⟨fw, hfw⟩
      by_contra hcc
      rw [if_neg hcc] at hfw
      exact absurd hfw (by simp)
    · intro hcc
      rw [if_pos hcc]
      exact ⟨_, rfl⟩
  · have key : ∀ bank fwbuf, hexLine line bank fwbuf = .fail (.checksumMismatch (cstr line)) :=
      fun bank fwbuf => by rw [hexLine_record h0 h hlen, if_neg hc]
    exact ⟨key, fun f bank fwbuf hf hr => loadfirmware_of_fail hf hr (key bank fwbuf)⟩
  · intro f bank fwbuf hf hr
    have hlen2 : (payload.set i v).length = payload.length := List.length_set _ _ _
    have hm2 : BytesAt mutated 1
        ([(payload.set i v).length, hi, lo, 0] ++ payload.set i v ++ [c]) := by
      rw [hlen2]; exact hm
    have hold : payload.getD i 0 < 256 := by
      rw [bytesAt_append, bytesAt_append] at h
      have := bytesAt_lt h.1.2 (payload.getD i 0)
      apply this
      rw [List.getD_eq_getElem _ _ hi2]
      exact List.getElem_mem _
    have hsum := sum_set payload i v hi2
    have hcne : c ≠ lineChecksum (payload.set i v).length hi lo (payload.set i v) := by
      rw [hc, hlen2, lineChecksum_eq, lineChecksum_eq]
      omega
    apply loadfirmware_of_fail hf hr
    rw [hexLine_record hm0 hm2 (by rw [hlen2]; exact hlen), if_neg hcne]

/-- Witness of C3 on the line `:04000000DEADBEEFC4` and on the same line with
the payload byte `DE` replaced by `DF`. -/
theorem checksum_acceptance_witness :
    (58 :: hexBytes [4, 0, 0, 0, 0xDE, 0xAD, 0xBE, 0xEF, 0xC4] ++ [10] =
      ascii ":04000000DEADBEEFC4\n") ∧
    ((∃ fw, hexLine (58 :: hexBytes [4, 0, 0, 0, 0xDE, 0xAD, 0xBE, 0xEF, 0xC4] ++ [10]) 0
      blankImage = .next 0 fw) ↔ 0xC4 = lineChecksum 4 0 0 [0xDE, 0xAD, 0xBE, 0xEF]) ∧
    loadfirmware (ascii ":04000000DFADBEEFC4\n") =
      .error (.checksumMismatch (cstr (ascii ":04000000DFADBEEFC4\n"))) := by
  have hw := checksum_acceptance
    (58 :: hexBytes [4, 0, 0, 0, 0xDE, 0xAD, 0xBE, 0xEF, 0xC4] ++ [10]) 0 0 0xC4
    [0xDE, 0xAD, 0xBE, 0xEF] (by decide)
    (bytesAt_hexBytes [58] [4, 0, 0, 0, 0xDE, 0xAD, 0xBE, 0xEF, 0xC4] [10] (by decide))
    (by decide)
  refine ⟨by decide, hw.1 0 blankImage, ?_⟩
  have hm : ascii ":04000000DFADBEEFC4\n" =
      [58] ++ hexBytes [4, 0, 0, 0, 0xDF, 0xAD, 0xBE, 0xEF, 0xC4] ++ [10] := by decide
  refine hw.2.2 (by decide) 0 0xDF (ascii ":04000000DFADBEEFC4\n") (by decide) (by decide)
    (by decide) (by decide) ?_ (ascii ":04000000DFADBEEFC4\n") 0 blankImage (by decide)
    ⟨[], [], by decide, rfl⟩
  rw [hm]
  exact bytesAt_hexBytes [58] [4, 0, 0, 0, 0xDF, 0xAD, 0xBE, 0xEF, 0xC4] [10] (by decide)

/-! ## C10: a record with a type other than 0 and a length other than 0 -/

/-- C10: a line whose header parses with a type other than 0 and a length
other than 0 fails with `Malformed line`, whatever follows the header on the
line, and so does the decode of every file that arrives at the line, whatever
lines follow it. -/
theorem typed_record_with_length_malformed (line : List Nat) (len hi lo type : Nat)
    (h0 : charAt line 0 = 58) (h : BytesAt line 1 [len, hi, lo, type])
    (hlen : len ≠ 0) (htype : type ≠ 0) :
    (∀ bank fwbuf, hexLine line bank fwbuf = .fail (.malformedLine (cstr line))) ∧
    ∀ f bank fwbuf, f.length ≠ FLASHSIZE → ReachesLine f line bank fwbuf →
      loadfirmware f = .error (.malformedLine (cstr line)) := by
  have key : ∀ bank fwbuf, hexLine line bank fwbuf = .fail (.malformedLine (cstr line)) := by
    intro bank fwbuf
    obtain ⟨g1, -, h⟩ := bytesAt_cons h
    obtain ⟨g2, -, h⟩ := bytesAt_cons h
    obtain ⟨g3, -, h⟩ := bytesAt_cons h
    obtain ⟨g4, -, -⟩ := bytesAt_cons h
    rw [hexLine_of_header h0 g1 g2 g3 g4, if_pos]
    right; right; right
    exact ⟨by exact_mod_cast htype, by exact_mod_cast hlen⟩
  exact ⟨key, fun f bank fwbuf hf hr => loadfirmware_of_fail hf hr (key bank fwbuf)⟩

/-- Witness of C10 on the extended-address record `:020000040800F2`. -/
theorem typed_record_with_length_malformed_witness :
    loadfirmware (ascii ":020000040800F2\n") =
      .error (.malformedLine (cstr (ascii ":020000040800F2\n"))) :=
  (typed_record_with_length_malformed (ascii ":020000040800F2\n") 2 0 0 4 (by decide)
    (by
      have hm : ascii ":020000040800F2\n" = [58] ++ hexBytes [2, 0, 0, 4] ++
          ascii "0800F2\n" := by decide
      rw [hm]
      exact bytesAt_hexBytes [58] [2, 0, 0, 4] _ (by decide))
    (by decide) (by decide)).2 (ascii ":020000040800F2\n") 0 blankImage (by decide)
    ⟨[], [], by decide, rfl⟩

/-! ## C4: truncated records -/

theorem getbyte_at_end {line : List Nat} {q : Nat}
    (h : line.length ≤ q + 1 ∨ charAt line q = 10 ∨ charAt line (q + 1) = 10) :
    getbyte line q = (-1, q) := by
  apply getbyte_bad
  rcases h with h | h | h
  · right
    have : charAt line (q + 1) = 0 := by
      unfold charAt
      exact List.getD_eq_default _ _ h
    rw [this]; decide
  · left; rw [h]; decide
  · right; rw [h]; decide

/-- The value of `hexLine` on a line with the header of a type-0 record of
declared length `len > 0`. -/
theorem hexLine_data_header {line : List Nat} {len hi lo : Nat} (h0 : charAt line 0 = 58)
    (h : BytesAt line 1 [len, hi, lo, 0]) (hlen : 0 < len) (bank : Int) (fwbuf : List Nat) :
    hexLine line bank fwbuf =
      match payloadLoop len line 9 bank ((hi * 256 + lo : Nat) : Int)
          (((len + hi + lo) % 256 : Nat) : Int) fwbuf with
      | none => .fail (.shortLine (cstr line))
      | some (p, hexsum, fw) =>
        if intAnd (0x100 - hexsum) 0xff ≠ (getbyte line p).1 then
          .fail (.checksumMismatch (cstr line))
        else .next bank fw := by
  obtain ⟨g1, b1, h⟩ := bytesAt_cons h
  obtain ⟨g2, b2, h⟩ := bytesAt_cons h
  obtain ⟨g3, b3, h⟩ := bytesAt_cons h
  obtain ⟨g4, -, -⟩ := bytesAt_cons h
  rw [hexLine_of_header h0 g1 g2 g3 g4, offset_eq hi lo b2 b3, header_sum _ hi lo b1 b2 b3]
  have hl0 : ((len : Nat) : Int) ≠ 0 := by omega
  rw [if_neg (by
    rintro (hx | hx | hx | ⟨hx, -⟩)
    · omega
    · omega
    · exact absurd hx (by decide)
    · exact hx rfl), if_neg hl0]
  simp only [Int.toNat_ofNat]

/-- C4, counterexample: the line `:02000000AABB` declares two payload bytes,
holds both and ends before its checksum byte; the decode fails with `Checksum
mismatch`, not with `Short line`. -/
theorem missing_checksum_is_mismatch :
    loadfirmware (ascii ":02000000AABB\n") =
      .error (.checksumMismatch (ascii ":02000000AABB\n")) ∧
    loadfirmware (ascii ":02000000AABB\n") ≠ .error (.shortLine (ascii ":02000000AABB\n")) := by
  decide

/-- C4, amended: a line with the header of a type-0 record of declared length
`len > 0` that ends after `present.length` payload bytes fails with `Short line`
when fewer than `len` payload bytes are present, and with `Checksum mismatch`
when all `len` payload bytes are present and the checksum byte is missing; in
both cases so does the decode of every file that arrives at the line. -/
theorem truncated_record_outcome (line : List Nat) (len hi lo : Nat) (present : List Nat)
    (h0 : charAt line 0 = 58) (h : BytesAt line 1 ([len, hi, lo, 0] ++ present))
    (hlen : 0 < len)
    (hend : line.length ≤ 9 + 2 * present.length + 1 ∨
      charAt line (9 + 2 * present.length) = 10 ∨
      charAt line (9 + 2 * present.length + 1) = 10) :
    (present.length < len →
      (∀ bank fwbuf, hexLine line bank fwbuf = .fail (.shortLine (cstr line))) ∧
      ∀ f bank fwbuf, f.length ≠ FLASHSIZE → ReachesLine f line bank fwbuf →
        loadfirmware f = .error (.shortLine (cstr line))) ∧
    (present.length = len →
      (∀ bank fwbuf, hexLine line bank fwbuf = .fail (.checksumMismatch (cstr line))) ∧
      ∀ f bank fwbuf, f.length ≠ FLASHSIZE → ReachesLine f line bank fwbuf →
        loadfirmware f = .error (.checksumMismatch (cstr line))) := by
  rw [bytesAt_append] at h
  obtain ⟨hhead, hpay⟩ := h
  simp only [List.length_cons, List.length_nil] at hpay
  have hg := getbyte_at_end hend
  constructor
  · intro hlt
    have key : ∀ bank fwbuf, hexLine line bank fwbuf = .fail (.shortLine (cstr line)) := by
      intro bank fwbuf
      rw [hexLine_data_header h0 hhead hlen,
        payloadLoop_short bank present len _ _ _ fwbuf hpay (Nat.mod_lt _ (by norm_num)) hlt
          (by
            rw [show 1 + 2 * (0 + 1 + 1 + 1 + 1) + 2 * present.length =
              9 + 2 * present.length by omega, hg]
            exact (by decide : (-1 : Int) < 0))]
    exact ⟨key, fun f bank fwbuf hf hr => loadfirmware_of_fail hf hr (key bank fwbuf)⟩
  · intro heq
    have key : ∀ bank fwbuf,
        hexLine line bank fwbuf = .fail (.checksumMismatch (cstr line)) := by
      intro bank fwbuf
      rw [hexLine_data_header h0 hhead hlen, ← heq,
        payloadLoop_bytesAt bank present _ _ _ fwbuf hpay (Nat.mod_lt _ (by norm_num))]
      simp only
      rw [show 1 + 2 * (0 + 1 + 1 + 1 + 1) + 2 * present.length =
        9 + 2 * present.length by omega, hg, final_sum _ (Nat.mod_lt _ (by norm_num)),
        if_pos (by simp only; omega)]
    exact ⟨key, fun f bank fwbuf hf hr => loadfirmware_of_fail hf hr (key bank fwbuf)⟩

/-- Witness of the amended C4 on the lines `:04001000AABB` (two of four
payload bytes) and `:02000000AABB` (payload complete, checksum missing). -/
theorem truncated_record_outcome_witness :
    loadfirmware (ascii ":04001000AABB\n") =
      .error (.shortLine (cstr (ascii ":04001000AABB\n"))) ∧
    loadfirmware (ascii ":02000000AABB\n") =
      .error (.checksumMismatch (cstr (ascii ":02000000AABB\n"))) :=
  ⟨((truncated_record_outcome (ascii ":04001000AABB\n") 4 0 0x10 [0xAA, 0xBB] (by decide)
      (by
        have hm : ascii ":04001000AABB\n" =
            [58] ++ hexBytes ([4, 0, 0x10, 0] ++ [0xAA, 0xBB]) ++ [10] := by decide
        rw [hm]
        exact bytesAt_hexBytes [58] _ [10] (by decide))
      (by decide) (Or.inr (Or.inl (by decide)))).1 (by decide)).2
      (ascii ":04001000AABB\n") 0 blankImage (by decide) ⟨[], [], by decide, rfl⟩,
   ((truncated_record_outcome (ascii ":02000000AABB\n") 2 0 0 [0xAA, 0xBB] (by decide)
      (by
        have hm : ascii ":02000000AABB\n" =
            [58] ++ hexBytes ([2, 0, 0, 0] ++ [0xAA, 0xBB]) ++ [10] := by decide
        rw [hm]
        exact bytesAt_hexBytes [58] _ [10] (by decide))
      (by decide) (Or.inr (Or.inl (by decide)))).2 (by decide)).2
      (ascii ":02000000AABB\n") 0 blankImage (by decide) ⟨[], [], by decide, rfl⟩⟩

/-! ## C9: a character that is not a hexadecimal digit -/

theorem getbyte_good {line : List Nat} {p : Nat}
    (h : ¬ (hexVal (charAt line p) = none ∨ hexVal (charAt line (p + 1)) = none)) :
    BytesAt line p [((getbyte line p).1).toNat] ∧
      getbyte line p = (((((getbyte line p).1).toNat : Nat) : Int), p + 2) := by
  push_neg at h
  obtain ⟨x, hx⟩ := Option.ne_none_iff_exists.1 h.1
  obtain ⟨y, hy⟩ := Option.ne_none_iff_exists.1 h.2
  have hxl := (hexDigit_of_hexVal hx.symm).2
  have hyl := (hexDigit_of_hexVal hy.symm).2
  obtain ⟨hg, hle⟩ := getbyte_ok hx.symm hy.symm
  rw [hg]
  simp only [Int.toNat_ofNat]
  refine ⟨⟨?_, ?_, by omega, trivial⟩, trivial⟩
  · rw [← hx]; congr 1; omega
  · rw [← hy]; congr 1; omega

/-- The longest run of well-formed bytes from index `p` on, up to `n` bytes. -/
theorem good_run (line : List Nat) (n p : Nat) :
    (∃ bs, bs.length = n ∧ BytesAt line p bs) ∨
    ∃ bs, bs.length < n ∧ BytesAt line p bs ∧
      (hexVal (charAt line (p + 2 * bs.length)) = none ∨
        hexVal (charAt line (p + 2 * bs.length + 1)) = none) := by
  induction n generalizing p with
  | zero => exact Or.inl ⟨[], rfl, trivial⟩
  | succ n ih =>
    by_cases hb : hexVal (charAt line p) = none ∨ hexVal (charAt line (p + 1)) = none
    · exact Or.inr ⟨[], by simp, trivial, by simpa using hb⟩
    · obtain ⟨⟨h1, h2, h3, -⟩, -⟩ := getbyte_good hb
      rcases ih (p + 2) with ⟨bs, hl, hbs⟩ | ⟨bs, hl, hbs, hbad⟩
      · exact Or.inl ⟨_ :: bs, by simp [hl], h1, h2, h3, hbs⟩
      · refine Or.inr ⟨_ :: bs, by simp; omega, ⟨h1, h2, h3, hbs⟩, ?_⟩
        rw [List.length_cons, show p + 2 * (bs.length + 1) = p + 2 + 2 * bs.length by omega]
        exact hbad

theorem bytesAt_good {line : List Nat} {p : Nat} {bs : List Nat} (h : BytesAt line p bs)
    (k : Nat) (hk : k < bs.length) :
    ¬ (hexVal (charAt line (p + 2 * k)) = none ∨ hexVal (charAt line (p + 2 * k + 1)) = none) := by
  induction bs generalizing p k with
  | nil => simp at hk
  | cons b bs ih =>
    cases k with
    | zero =>
      obtain ⟨h1, h2, -, -⟩ := h
      simp [h1, h2]
    | succ k =>
      have := ih h.2.2.2 k (by simpa using hk)
      rwa [show p + 2 + 2 * k = p + 2 * (k + 1) by omega] at this

theorem intOr_neg_one : ∀ h : Nat, h < 256 → intOr (intShl (h : Int) 8) (-1) = -1 := by
  decide!

theorem sentinel_digits {line tail : List Nat} {lit : List Nat} (hl : lit.length = 11)
    (h : line = lit ++ tail) (k : Nat) (hk : k < 5) :
    charAt line (1 + 2 * k) = charAt lit (1 + 2 * k) ∧
      charAt line (1 + 2 * k + 1) = charAt lit (1 + 2 * k + 1) := by
  subst h
  exact ⟨charAt_append_left _ (by omega), charAt_append_left _ (by omega)⟩

theorem bankSwitch_digits_ok : ∀ k, k < 5 →
    ¬ (hexVal (charAt (ascii ":00000155AA") (1 + 2 * k)) = none ∨
      hexVal (charAt (ascii ":00000155AA") (1 + 2 * k + 1)) = none) := by
  decide

theorem eof_digits_ok : ∀ k, k < 5 →
    ¬ (hexVal (charAt (ascii ":00000001FF") (1 + 2 * k)) = none ∨
      hexVal (charAt (ascii ":00000001FF") (1 + 2 * k + 1)) = none) := by
  decide

theorem isBankSwitch_digits {line : List Nat} (h : isBankSwitch line = true) (k : Nat)
    (hk : k < 5) :
    ¬ (hexVal (charAt line (1 + 2 * k)) = none ∨ hexVal (charAt line (1 + 2 * k + 1)) = none) := by
  obtain ⟨tail, ht⟩ := (isBankSwitch_iff line).1 h
  obtain ⟨e1, e2⟩ := sentinel_digits (by decide) ht k hk
  rw [e1, e2]
  exact bankSwitch_digits_ok k hk

theorem isEof_digits {line : List Nat} (h : isEof line = true) (k : Nat) (hk : k < 5) :
    ¬ (hexVal (charAt line (1 + 2 * k)) = none ∨ hexVal (charAt line (1 + 2 * k + 1)) = none) := by
  obtain ⟨tail, ht⟩ := (isEof_iff line).1 h
  obtain ⟨e1, e2⟩ := sentinel_digits (by decide) ht k hk
  rw [e1, e2]
  exact eof_digits_ok k hk

theorem declaredLength_of_bytesAt {line : List Nat} {len : Nat} {bs : List Nat}
    (h : BytesAt line 1 (len :: bs)) : declaredLength line = len := by
  obtain ⟨h1, h2, -, -⟩ := h
  unfold declaredLength
  rw [h1, h2]
  simp only
  omega

/-- A line that starts with `:` and has a bad digit position fails, whatever
the state of the loop is. -/
theorem hexLine_badDigit {line : List Nat} (h0 : charAt line 0 = 58) (hbad : BadDigit line)
    (bank : Int) (fwbuf : List Nat) : ∃ e, hexLine line bank fwbuf = .fail e := by
  obtain ⟨k, hk, hkbad⟩ := hbad
  rcases good_run line 4 1 with ⟨bs, hl, hbs⟩ | ⟨bs, hl, hbs, hb⟩
  · -- the four header bytes are well formed
    obtain ⟨len, bs, rfl⟩ : ∃ a t, bs = a :: t := by
      cases bs with
      | nil => simp at hl
      | cons a t => exact ⟨a, t, rfl⟩
    obtain ⟨hi, bs, rfl⟩ : ∃ a t, bs = a :: t := by
      cases bs with
      | nil => simp at hl
      | cons a t => exact ⟨a, t, rfl⟩
    obtain ⟨lo, bs, rfl⟩ : ∃ a t, bs = a :: t := by
      cases bs with
      | nil => simp at hl
      | cons a t => exact ⟨a, t, rfl⟩
    obtain ⟨type, bs, rfl⟩ : ∃ a t, bs = a :: t := by
      cases bs with
      | nil => simp at hl
      | cons a t => exact ⟨a, t, rfl⟩
    have hnil : bs = [] := List.length_eq_zero.mp (by simpa using hl)
    subst hnil
    rw [declaredLength_of_bytesAt hbs] at hk
    have hk4 : 4 ≤ k := by
      by_contra hlt
      exact bytesAt_good hbs k (by simp; omega) hkbad
    obtain ⟨g1, b1, hr⟩ := bytesAt_cons hbs
    obtain ⟨g2, b2, hr⟩ := bytesAt_cons hr
    obtain ⟨g3, b3, hr⟩ := bytesAt_cons hr
    obtain ⟨g4, b4, -⟩ := bytesAt_cons hr
    by_cases hlen : len = 0
    · -- a zero-length record: the checksum digits differ from both sentinels
      subst hlen
      have hk' : k = 4 := by omega
      subst hk'
      have hbs1 : isBankSwitch line = false := by
        cases hc : isBankSwitch line with
        | false => rfl
        | true => exact absurd hkbad (isBankSwitch_digits hc 4 (by decide))
      have hbs2 : isEof line = false := by
        cases hc : isEof line with
        | false => rfl
        | true => exact absurd hkbad (isEof_digits hc 4 (by decide))
      rw [hexLine_of_header h0 g1 g2 g3 g4, hbs1, hbs2]
      simp only [Bool.false_eq_true, if_false]
      split_ifs with c1 c2
      · exact ⟨_, rfl⟩
      · exact ⟨_, rfl⟩
      · exact absurd rfl c2
    · by_cases htype : type = 0
      · subst htype
        rw [hexLine_data_header h0 hbs (by omega)]
        rcases good_run line (len + 1) 9 with ⟨ps, hpl, hps⟩ | ⟨ps, hpl, hps, hpb⟩
        · -- every payload byte and the checksum byte are well formed
          exfalso
          have := bytesAt_good hps (k - 4) (by omega)
          rw [show 9 + 2 * (k - 4) = 1 + 2 * k by omega] at this
          exact this hkbad
        · by_cases hfull : ps.length = len
          · rw [← hfull, payloadLoop_bytesAt bank ps _ _ _ fwbuf hps
              (Nat.mod_lt _ (by norm_num))]
            simp only
            rw [getbyte_bad hpb, final_sum _ (Nat.mod_lt _ (by norm_num)),
              if_pos (by simp only; omega)]
            exact ⟨_, rfl⟩
          · rw [payloadLoop_short bank ps len _ _ _ fwbuf hps (Nat.mod_lt _ (by norm_num))
              (by omega) (by rw [getbyte_bad hpb]; exact (by decide : (-1 : Int) < 0))]
            exact ⟨_, rfl⟩
      · rw [hexLine_of_header h0 g1 g2 g3 g4, if_pos]
        · exact ⟨_, rfl⟩
        · right; right; right
          exact ⟨by exact_mod_cast htype, by exact_mod_cast hlen⟩
  · -- a header byte is malformed
    have hfail := getbyte_bad hb
    rcases h1 : getbyte line 1 with ⟨len, p1⟩
    rcases h2 : getbyte line p1 with ⟨hi, p2⟩
    rcases h3 : getbyte line p2 with ⟨lo, p3⟩
    rcases h4 : getbyte line p3 with ⟨type, p4⟩
    rw [hexLine_of_header h0 h1 h2 h3 h4, if_pos]
    · exact ⟨_, rfl⟩
    · match bs, hl, hbs, hfail with
      | [], _, _, hfail =>
        left
        rw [show 1 + 2 * ([] : List Nat).length = 1 by rfl, h1] at hfail
        rw [(Prod.mk.inj hfail).1]
        decide
      | [a], _, hbs, hfail =>
        right; left
        obtain ⟨g1, -, -⟩ := bytesAt_cons hbs
        rw [h1] at g1
        obtain ⟨-, rfl⟩ := Prod.mk.inj g1
        rw [show 1 + 2 * [a].length = 1 + 2 by rfl] at hfail
        rw [hfail] at h2
        obtain ⟨rfl, rfl⟩ := Prod.mk.inj h2
        rw [hfail] at h3
        obtain ⟨rfl, rfl⟩ := Prod.mk.inj h3
        decide
      | [a, b], _, hbs, hfail =>
        right; left
        obtain ⟨g1, -, hbs⟩ := bytesAt_cons hbs
        obtain ⟨g2, hb2, -⟩ := bytesAt_cons hbs
        rw [h1] at g1
        obtain ⟨-, rfl⟩ := Prod.mk.inj g1
        rw [h2] at g2
        obtain ⟨rfl, rfl⟩ := Prod.mk.inj g2
        rw [show 1 + 2 * [a, b].length = 1 + 2 + 2 by rfl] at hfail
        rw [hfail] at h3
        obtain ⟨rfl, rfl⟩ := Prod.mk.inj h3
        rw [intOr_neg_one b hb2]
        decide
      | [a, b, c], _, hbs, hfail =>
        right; right; left
        obtain ⟨g1, -, hbs⟩ := bytesAt_cons hbs
        obtain ⟨g2, -, hbs⟩ := bytesAt_cons hbs
        obtain ⟨g3, -, -⟩ := bytesAt_cons hbs
        rw [h1] at g1
        obtain ⟨-, rfl⟩ := Prod.mk.inj g1
        rw [h2] at g2
        obtain ⟨-, rfl⟩ := Prod.mk.inj g2
        rw [h3] at g3
        obtain ⟨-, rfl⟩ := Prod.mk.inj g3
        rw [show 1 + 2 * [a, b, c].length = 1 + 2 + 2 + 2 by rfl] at hfail
        rw [hfail] at h4
        rw [← (Prod.mk.inj h4).1]
        decide
      | _ :: _ :: _ :: _ :: _, hl, _, _ => simp at hl; omega

/-- C9: when a file of the hex path has, at or before the first end-of-file
sentinel, a line that starts with `:` and in which a digit position of the
length, the address, the type, a declared payload byte or the checksum byte does
not hold a hexadecimal digit, `loadfirmware` returns no image; the line itself
fails in every state of the loop. -/
theorem bad_digit_aborts (f : List Nat) (hf : f.length ≠ FLASHSIZE)
    (before after : List (List Nat)) (bad : List Nat)
    (hl : lines f = before ++ bad :: after) (hpre : ∀ l ∈ before, isEof l = false)
    (h0 : charAt bad 0 = 58) (hbad : BadDigit bad) :
    (∃ e, loadfirmware f = .error e) ∧ ∀ bank fwbuf, ∃ e, hexLine bad bank fwbuf = .fail e := by
  refine ⟨?_, fun bank fwbuf => hexLine_badDigit h0 hbad bank fwbuf⟩
  rw [loadfirmware_hex hf, hl, hexLines_append]
  rcases hexLines_no_eof before 0 blankImage hpre with ⟨e, he⟩ | ⟨b, fw, hb⟩
  · rw [he]
    exact ⟨e, rfl⟩
  · rw [hb]
    simp only
    obtain ⟨e, he⟩ := hexLine_badDigit h0 hbad b fw
    rw [hexLines_cons, he]
    exact ⟨e, rfl⟩

/-- Witness of C9 on the line `:04000000DEADBEGFC4`, whose fourth payload
byte starts with the character `G`. -/
theorem bad_digit_aborts_witness :
    (∃ e, loadfirmware (ascii ":04000000DEADBEGFC4\n") = .error e) ∧
    ∀ bank fwbuf, ∃ e, hexLine (ascii ":04000000DEADBEGFC4\n") bank fwbuf = .fail e :=
  bad_digit_aborts (ascii ":04000000DEADBEGFC4\n") (by decide) [] []
    (ascii ":04000000DEADBEGFC4\n") (by decide) (by simp) (by decide)
    ⟨7, by decide, Or.inl (by decide)⟩

/-! ## C2: one data record, fifteen bank switches, end of file -/

theorem bank_zero_index (a : Nat) (h : a < 2 ^ 31) :
    (intOr (intShl 0 16) (a : Int)).toNat = a := by
  have e : intShl 0 16 = ((0 : Nat) : Int) := by decide
  rw [e, intOr_natCast (by norm_num) h, Nat.zero_or, Int.toNat_ofNat]

theorem writePayload_length (bank : Int) (p : List Nat) (offset : Int) (fwbuf : List Nat) :
    (writePayload bank p offset fwbuf).length = fwbuf.length := by
  induction p generalizing offset fwbuf with
  | nil => rfl
  | cons b bs ih =>
    show (writePayload bank bs (offset + 1) _).length = _
    rw [ih, List.length_set]

/-- The image after the payload loop in bank 0. -/
theorem writePayload_zero (p : List Nat) (a : Nat) (fwbuf : List Nat)
    (h : a + p.length ≤ fwbuf.length) (h31 : fwbuf.length < 2 ^ 31) (j : Nat) :
    (writePayload 0 p (a : Int) fwbuf)[j]? =
      if a ≤ j ∧ j < a + p.length then p[j - a]? else fwbuf[j]? := by
  induction p generalizing a fwbuf with
  | nil =>
    rw [if_neg (by simp)]
    rfl
  | cons b bs ih =>
    have hstep : writePayload 0 (b :: bs) (a : Int) fwbuf =
        writePayload 0 bs (((a + 1 : Nat)) : Int) (fwbuf.set a b) := by
      show writePayload 0 bs ((a : Int) + 1) _ = _
      rw [bank_zero_index a (by simp at h; omega)]
      norm_cast
    rw [hstep, ih (a + 1) (fwbuf.set a b) (by simp at h ⊢; omega) (by simpa using h31)]
    simp only [List.length_cons] at h ⊢
    by_cases hj : j = a
    · subst hj
      rw [if_neg (by omega), if_pos (by omega), List.getElem?_set_self (by omega)]
      simp
    · rw [List.getElem?_set_ne (fun e => hj e.symm)]
      by_cases hin : a + 1 ≤ j ∧ j < a + 1 + bs.length
      · rw [if_pos hin, if_pos (by omega)]
        obtain ⟨m, hm⟩ : ∃ m, j - a = m + 1 := ⟨j - a - 1, by omega⟩
        rw [hm, List.getElem?_cons_succ, show j - (a + 1) = m by omega]
      · rw [if_neg hin, if_neg (by omega)]

theorem upperDigit_ne_newline (i : Nat) : upperDigits.getD i 0 ≠ 10 := by
  by_cases h : i < 16
  · revert i
    decide
  · rw [List.getD_eq_default _ _ (by rw [upperDigits_eq]; simp; omega)]
    decide

theorem newline_not_mem_hexBytes (bs : List Nat) : 10 ∉ hexBytes bs := by
  induction bs with
  | nil => simp [hexBytes]
  | cons b bs ih =>
    simp only [hexBytes, hexByte, List.cons_append, List.nil_append, List.mem_cons, not_or]
    exact ⟨fun e => upperDigit_ne_newline _ e.symm, fun e => upperDigit_ne_newline _ e.symm, ih⟩

theorem lineChecksum_lt (len hi lo : Nat) (p : List Nat) : lineChecksum len hi lo p < 256 := by
  rw [lineChecksum_eq]
  exact Nat.mod_lt _ (by norm_num)

theorem dataRecord_length (a : Nat) (p : List Nat) : (dataRecord a p).length = 2 * p.length + 12 := by
  unfold dataRecord
  simp only [List.length_cons, List.length_append, hexBytes_length, List.length_nil]
  omega

theorem sentinels_length :
    (repeatLines 15 (ascii ":00000155AA\n") ++ ascii ":00000001FF\n").length = 192 := by
  decide!

/-- The hex decoder on `endToEndFile a p`. -/
theorem loadfirmware_endToEnd (a : Nat) (p : List Nat) (hp : p ≠ [])
    (hb : ∀ b ∈ p, b < 256) (ha : a + p.length ≤ 0x10000)
    (hfit : (dataRecord a p).length < 80) :
    loadfirmware (endToEndFile a p) = .ok (writePayload 0 p (a : Int) blankImage) := by
  rw [dataRecord_length] at hfit
  have hlen : 0 < p.length := List.length_pos.mpr hp
  have hf : (endToEndFile a p).length ≠ FLASHSIZE := by
    unfold endToEndFile
    rw [List.length_append, dataRecord_length, sentinels_length]
    unfold FLASHSIZE
    omega
  have hbytes : ∀ x ∈ [p.length, a / 256, a % 256, 0] ++ p ++
      [lineChecksum p.length (a / 256) (a % 256) p], x < 256 := by
    intro x hx
    simp only [List.mem_append, List.mem_cons, List.mem_singleton, List.not_mem_nil,
      or_false] at hx
    rcases hx with ((rfl | rfl | rfl | rfl) | hx) | rfl
    · omega
    · omega
    · omega
    · omega
    · exact hb x hx
    · exact lineChecksum_lt _ _ _ _
  have hlines : lines (endToEndFile a p) =
      dataRecord a p :: (List.replicate 15 (ascii ":00000155AA\n") ++
        [ascii ":00000001FF\n"]) := by
    unfold endToEndFile dataRecord
    rw [List.append_assoc, List.singleton_append, lines_line_cons, lines_fifteen_eof]
    · intro hmem
      rcases List.mem_cons.1 hmem with e | e
      · exact absurd e (by decide)
      · exact newline_not_mem_hexBytes _ e
    · simp only [List.length_cons, hexBytes_length, List.length_append, List.length_nil]
      omega
  have hrec : hexLine (dataRecord a p) 0 blankImage =
      .next 0 (writePayload 0 p (a : Int) blankImage) := by
    have h0 : charAt (dataRecord a p) 0 = 58 := rfl
    have hb2 : BytesAt (dataRecord a p) 1 ([p.length, a / 256, a % 256, 0] ++ p ++
        [lineChecksum p.length (a / 256) (a % 256) p]) :=
      bytesAt_hexBytes [58] _ [10] hbytes
    rw [hexLine_record h0 hb2 hlen, if_pos rfl, show a / 256 * 256 + a % 256 = a by omega]
  rw [loadfirmware_hex hf, hlines, hexLines_cons, hrec]
  simp only
  rw [hexLines_append, hexLines_bankSwitches 15 _ bankSwitch_nl 0 _ (by decide)]
  simp only
  rw [hexLines_cons, hexLine_eof eof_nl]
  rfl

/-- C2: for a bank-relative address `a` and a non-empty payload `p` of bytes
with `a + len(p) <= 0x10000` whose record line fits the 80-character line
buffer, the decode of the file made of the data record for `(a, p)` with its
prescribed checksum, fifteen lines `:00000155AA` and the line `:00000001FF`
returns an image of `FLASHSIZE` bytes that holds `p[i]` at index `a + i` and
`0xFF` at every other index. -/
theorem end_to_end (a : Nat) (p : List Nat) (hp : p ≠ []) (hb : ∀ b ∈ p, b < 256)
    (ha : a + p.length ≤ 0x10000) (hfit : (dataRecord a p).length < 80) :
    ∃ img, loadfirmware (endToEndFile a p) = .ok img ∧ img.length = FLASHSIZE ∧
      (∀ i, i < p.length → img[a + i]? = p[i]?) ∧
      (∀ j, j < FLASHSIZE → ¬ (a ≤ j ∧ j < a + p.length) → img[j]? = some 0xFF) := by
  have hbl : blankImage.length = FLASHSIZE := List.length_replicate _ _
  have hF : FLASHSIZE = 0x100000 := rfl
  refine ⟨_, loadfirmware_endToEnd a p hp hb ha hfit, ?_, fun i hi => ?_, fun j hj hout => ?_⟩
  · rw [writePayload_length, hbl]
  · rw [writePayload_zero p a blankImage (by rw [hbl, hF]; omega) (by rw [hbl, hF]; norm_num),
      if_pos (by omega), Nat.add_sub_cancel_left]
  · rw [writePayload_zero p a blankImage (by rw [hbl, hF]; omega) (by rw [hbl, hF]; norm_num),
      if_neg hout]
    unfold blankImage
    rw [List.getElem?_replicate, if_pos hj]

/-- Witness of C2 on the record line `:04000000DEADBEEFC4`. -/
theorem end_to_end_witness :
    dataRecord 0 [0xDE, 0xAD, 0xBE, 0xEF] = ascii ":04000000DEADBEEFC4\n" ∧
    ∃ img, loadfirmware (endToEndFile 0 [0xDE, 0xAD, 0xBE, 0xEF]) = .ok img ∧
      img.length = FLASHSIZE ∧
      (∀ i, i < 4 → img[0 + i]? = [0xDE, 0xAD, 0xBE, 0xEF][i]?) ∧
      (∀ j, j < FLASHSIZE → ¬ (0 ≤ j ∧ j < 0 + 4) → img[j]? = some 0xFF) :=
  ⟨by decide, end_to_end 0 [0xDE, 0xAD, 0xBE, 0xEF] (by decide) (by decide) (by decide)
    (by decide)⟩

/-! ## C11: `calcsum` -/

theorem sum_le_of_bytes (l : List Nat) (h : ∀ b ∈ l, b < 256) : l.sum ≤ 255 * l.length := by
  induction l with
  | nil => simp
  | cons x xs ih =>
    have hx : x < 256 := h x (by simp)
    have := ih (fun b hb => h b (List.mem_cons_of_mem _ hb))
    simp only [List.sum_cons, List.length_cons]
    omega

theorem calcsumLoop_eq (fwbuf : List Nat) (n i s : Nat)
    (h : s + 255 * n < 2 ^ 32) (hb : ∀ b ∈ fwbuf, b < 256) :
    calcsumLoop fwbuf n i s = s + ((fwbuf.drop i).take n).sum := by
  induction n generalizing i s with
  | zero => simp [calcsumLoop]
  | succ n ih =>
    have hd : fwbuf.getD i 0 < 256 := by
      by_cases hi : i < fwbuf.length
      · rw [List.getD_eq_getElem _ _ hi]
        exact hb _ (List.getElem_mem _)
      · rw [List.getD_eq_default _ _ (by omega)]
        norm_num
    have hstep : calcsumLoop fwbuf (n + 1) i s =
        calcsumLoop fwbuf n (i + 1) ((s + fwbuf.getD i 0) % 2 ^ 32) := rfl
    rw [hstep, Nat.mod_eq_of_lt (by omega), ih (i + 1) _ (by omega)]
    by_cases hi : i < fwbuf.length
    · rw [List.drop_eq_getElem_cons hi, List.take_succ_cons, List.sum_cons,
        List.getD_eq_getElem _ _ hi]
      omega
    · rw [List.getD_eq_default _ _ (by omega), List.drop_eq_nil_of_le (by omega),
        List.drop_eq_nil_of_le (by omega)]
      simp

/-- C11: for an image buffer of `FLASHSIZE` bytes, `calcsum` returns the sum
of its bytes modulo 65536; the 32-bit accumulator never wraps: after every
number of passes it holds the exact sum of the bytes read so far, and the total
is at most `255 * 0x100000 < 2 ^ 32`. -/
theorem calcsum_spec (fwbuf : List Nat) (hlen : fwbuf.length = FLASHSIZE)
    (hb : ∀ b ∈ fwbuf, b < 256) :
    calcsum fwbuf = fwbuf.sum % 65536 ∧
    (∀ n, n ≤ FLASHSIZE → calcsumLoop fwbuf n 0 0 = (fwbuf.take n).sum ∧
      (fwbuf.take n).sum < 2 ^ 32) ∧
    fwbuf.sum ≤ 255 * 0x100000 ∧ 255 * 0x100000 < 2 ^ 32 := by
  have hF : FLASHSIZE = 0x100000 := rfl
  have hloop : ∀ n, n ≤ FLASHSIZE → calcsumLoop fwbuf n 0 0 = (fwbuf.take n).sum := by
    intro n hn
    rw [calcsumLoop_eq fwbuf n 0 0 (by rw [hF] at hn; omega) hb]
    simp
  have hsum : fwbuf.sum ≤ 255 * 0x100000 := by
    have := sum_le_of_bytes fwbuf hb
    rw [hlen, hF] at this
    exact this
  refine ⟨?_, fun n hn => ⟨hloop n hn, ?_⟩, hsum, by norm_num⟩
  · unfold calcsum
    rw [hloop FLASHSIZE (le_refl _), ← hlen, List.take_length,
      show (0xffff : Nat) = 2 ^ 16 - 1 by norm_num, Nat.and_pow_two_sub_one_eq_mod]
  · have h1 := sum_le_of_bytes (fwbuf.take n) (fun b hb2 => hb b (List.mem_of_mem_take hb2))
    have h2 : (fwbuf.take n).length ≤ n := by simp
    rw [hF] at hn
    have h3 : 255 * (fwbuf.take n).length ≤ 255 * n := Nat.mul_le_mul_left _ h2
    omega

/-- Witness of C11 on the erased image of `FLASHSIZE` bytes `0xFF`. -/
theorem calcsum_spec_witness :
    calcsum (List.replicate FLASHSIZE 0xff) = (List.replicate FLASHSIZE 0xff).sum % 65536 :=
  (calcsum_spec (List.replicate FLASHSIZE 0xff) (List.length_replicate _ _)
    (fun b hb => by rw [List.eq_of_mem_replicate hb]; norm_num)).1

/-! ## C12: the command frame -/

theorem intAnd_ff_emod (x : Int) : intAnd x 0xff = x % 256 := by
  unfold intAnd
  have h1 : toBits 0xff = 0xff := by decide
  rw [h1, show (0xff : Nat) = 2 ^ 8 - 1 by norm_num, Nat.and_pow_two_sub_one_eq_mod]
  have hlt : toBits x % 2 ^ 8 < 2 ^ 31 :=
    lt_of_lt_of_le (Nat.mod_lt _ (by norm_num)) (by norm_num)
  rw [ofBits_natCast hlt]
  unfold toBits
  have hnn : 0 ≤ x % 2 ^ 32 := Int.emod_nonneg _ (by norm_num)
  rw [Int.natCast_mod, Int.toNat_of_nonneg hnn]
  norm_num

theorem ofBits_cases (a : Nat) :
    ofBits a = (a : Int) ∨ ofBits a = (a : Int) - 4294967296 := by
  unfold ofBits
  split_ifs
  · exact Or.inl rfl
  · right; norm_num

theorem address_bytes (a : Nat) (ha : a < 2 ^ 32) :
    (intAnd (intShr (ofBits a) 24) 0xff).toNat = a / 2 ^ 24 ∧
    (intAnd (intShr (ofBits a) 16) 0xff).toNat = a / 2 ^ 16 % 256 ∧
    (intAnd (intShr (ofBits a) 8) 0xff).toNat = a / 2 ^ 8 % 256 ∧
    (intAnd (ofBits a) 0xff).toNat = a % 256 := by
  simp only [intAnd_ff_emod, intShr]
  norm_num
  rcases ofBits_cases a with h | h <;> rw [h] <;> omega

theorem opcode_bytes (op : Nat) (hop : op < 2 ^ 16) :
    (intAnd (intShr (op : Int) 8) 0xff).toNat = op / 256 ∧
    (intAnd (op : Int) 0xff).toNat = op % 256 := by
  simp only [intAnd_ff_emod, intShr]
  norm_num
  omega

/-- C12: for a 16-bit opcode, an address below `2 ^ 32` (the 32-bit pattern of
the `int address`) and a chunk of at most 512 bytes, the command frame holds the
opcode in bytes 0-1 and the address in bytes 2-5, both big-endian, the length in
bytes 6-7, big-endian, `0` in byte 8, the low byte of `crc16(chunk)` in byte 9
and its high byte in byte 10. -/
theorem commandFrame_layout (opcode a : Nat) (chunk : List Nat) (hop : opcode < 2 ^ 16)
    (ha : a < 2 ^ 32) (hlen : chunk.length ≤ 512) :
    commandFrame (opcode : Int) (ofBits a) chunk =
      [opcode / 256, opcode % 256,
       a / 2 ^ 24, a / 2 ^ 16 % 256, a / 2 ^ 8 % 256, a % 256,
       chunk.length / 256, chunk.length % 256,
       0,
       crc16 chunk % 256, crc16 chunk / 256] := by
  obtain ⟨a3, a2, a1, a0⟩ := address_bytes a ha
  obtain ⟨o1, o0⟩ := opcode_bytes opcode hop
  have hcrc : crc16 chunk < 2 ^ 16 := Nat.mod_lt _ (by norm_num)
  unfold commandFrame
  simp only [a3, a2, a1, a0, o1, o0]
  have hm : (0xff : Nat) = 2 ^ 8 - 1 := by norm_num
  rw [hm, Nat.and_pow_two_sub_one_eq_mod, Nat.and_pow_two_sub_one_eq_mod,
    Nat.and_pow_two_sub_one_eq_mod, Nat.and_pow_two_sub_one_eq_mod,
    Nat.shiftRight_eq_div_pow, Nat.shiftRight_eq_div_pow]
  have e1 : chunk.length / 2 ^ 8 % 2 ^ 8 = chunk.length / 256 := by omega
  have e2 : crc16 chunk / 2 ^ 8 % 2 ^ 8 = crc16 chunk / 256 := by omega
  rw [e1, e2]

/-- Witness of C12: opcode `0xFB04`, address `0x12000`, chunk `[0x01, 0x02]`. -/
theorem commandFrame_layout_witness :
    commandFrame 0xFB04 0x12000 [0x01, 0x02] =
      [0xFB, 0x04, 0x00, 0x01, 0x20, 0x00, 0x00, 0x02, 0x00,
       crc16 [0x01, 0x02] % 256, crc16 [0x01, 0x02] / 256] ∧
    crc16 [0x01, 0x02] = 0x1373 :=
  ⟨commandFrame_layout 0xFB04 0x12000 [0x01, 0x02] (by norm_num) (by norm_num) (by simp),
   by decide⟩

/-! ## C15: a single-bit difference changes `crc16` -/

theorem crc16_xmodem (data : List Nat) : crc16 data = xmodem data := by
  unfold crc16 xmodem
  rw [crc_fold_low16 data (rfl : 0 % 2 ^ 16 = 0 % 2 ^ 16)]
  exact xmodem_fold_low16 data (by norm_num)

theorem xmodemBit_lt (y : Nat) : xmodemBit y < 2 ^ 16 := by
  rw [← xmodemBit_low16]
  exact Nat.mod_lt _ (by norm_num)

theorem xmodemByte_lt (y b : Nat) : xmodemByte y b < 2 ^ 16 := by
  rw [← xmodemByte_low16]
  exact Nat.mod_lt _ (by norm_num)

theorem shifted_even (r : Nat) : ((r <<< 1) &&& 0xFFFF) % 2 = 0 := by
  rw [show (0xFFFF : Nat) = 2 ^ 16 - 1 by norm_num, Nat.and_pow_two_sub_one_eq_mod,
    Nat.shiftLeft_eq]
  omega

theorem xor_poly_odd (m : Nat) (h : m % 2 = 0) : (m ^^^ 0x1021) % 2 = 1 := by
  have h1 : (m ^^^ 0x1021).testBit 0 = true := by
    rw [Nat.testBit_xor, Nat.testBit_zero, Nat.testBit_zero]
    simp [h]
  rw [Nat.testBit_zero] at h1
  simpa using h1

/-- One step of the register is injective on 16-bit values. -/
theorem xmodemBit_inj {r s : Nat} (hr : r < 2 ^ 16) (hs : s < 2 ^ 16)
    (h : xmodemBit r = xmodemBit s) : r = s := by
  have hbit : ∀ x, x < 2 ^ 16 → (x.testBit 15 = true ↔ 2 ^ 15 ≤ x) := by
    intro x hx
    rw [Nat.testBit_to_div_mod]
    simp only [decide_eq_true_eq]
    omega
  have hm : ∀ x, (x <<< 1) &&& 0xFFFF = (2 * x) % 65536 := by
    intro x
    rw [show (0xFFFF : Nat) = 2 ^ 16 - 1 by norm_num, Nat.and_pow_two_sub_one_eq_mod,
      Nat.shiftLeft_eq]
    congr 1
    omega
  unfold xmodemBit at h
  by_cases h1 : r.testBit 15 = true <;> by_cases h2 : s.testBit 15 = true
  · rw [if_pos h1, if_pos h2, Nat.xor_left_inj, hm, hm] at h
    have := (hbit r hr).1 h1
    have := (hbit s hs).1 h2
    omega
  · rw [if_pos h1, if_neg h2] at h
    have e1 := xor_poly_odd _ (shifted_even r)
    have e2 := shifted_even s
    rw [h] at e1
    omega
  · rw [if_neg h1, if_pos h2] at h
    have e1 := xor_poly_odd _ (shifted_even s)
    have e2 := shifted_even r
    rw [h] at e2
    omega
  · rw [if_neg h1, if_neg h2, hm, hm] at h
    have := (hbit r hr).not.1 h1
    have := (hbit s hs).not.1 h2
    omega

theorem xmodemBits_lt (n : Nat) {r : Nat} (hr : r < 2 ^ 16) : xmodemBit^[n] r < 2 ^ 16 := by
  cases n with
  | zero => simpa using hr
  | succ n =>
    rw [Function.iterate_succ_apply']
    exact xmodemBit_lt _

theorem xmodemBits_inj (n : Nat) {r s : Nat} (hr : r < 2 ^ 16) (hs : s < 2 ^ 16)
    (h : xmodemBit^[n] r = xmodemBit^[n] s) : r = s := by
  induction n with
  | zero => simpa using h
  | succ n ih =>
    rw [Function.iterate_succ_apply', Function.iterate_succ_apply'] at h
    exact ih (xmodemBit_inj (xmodemBits_lt n hr) (xmodemBits_lt n hs) h)

theorem xor_byte_lt {r b : Nat} (hr : r < 2 ^ 16) (hb : b < 256) : r ^^^ (b <<< 8) < 2 ^ 16 := by
  apply Nat.xor_lt_two_pow hr
  rw [Nat.shiftLeft_eq]
  omega

/-- The register after a byte determines the register before it and the byte. -/
theorem xmodemByte_inj {r s a b : Nat} (hr : r < 2 ^ 16) (hs : s < 2 ^ 16) (ha : a < 256)
    (hb : b < 256) (h : xmodemByte r a = xmodemByte s b) : r ^^^ (a <<< 8) = s ^^^ (b <<< 8) :=
  xmodemBits_inj 8 (xor_byte_lt hr ha) (xor_byte_lt hs hb) h

theorem xmodem_fold_lt (data : List Nat) {r : Nat} (hr : r < 2 ^ 16) :
    data.foldl xmodemByte r < 2 ^ 16 := by
  induction data generalizing r with
  | nil => simpa using hr
  | cons b bs ih => exact ih (xmodemByte_lt r b)

theorem xmodem_fold_ne (data : List Nat) (hd : ∀ x ∈ data, x < 256) {r s : Nat}
    (hr : r < 2 ^ 16) (hs : s < 2 ^ 16) (h : r ≠ s) :
    data.foldl xmodemByte r ≠ data.foldl xmodemByte s := by
  induction data generalizing r s with
  | nil => simpa using h
  | cons b bs ih =>
    have hb : b < 256 := hd b (by simp)
    apply ih (fun x hx => hd x (List.mem_cons_of_mem _ hx)) (xmodemByte_lt r b)
      (xmodemByte_lt s b)
    intro hc
    exact h (Nat.xor_left_inj.1 (xmodemByte_inj hr hs hb hb hc))

/-- C15: two byte sequences of the same length that differ in exactly one bit
(the bytes `a` and `b` at one position differ in bit `k` alone, every other
byte is the same) have different `crc16` values. -/
theorem crc16_single_bit (pre post : List Nat) (a b k : Nat)
    (ha : a < 256) (hb : b < 256) (hpost : ∀ x ∈ post, x < 256)
    (hbit : a ^^^ b = 2 ^ k) :
    crc16 (pre ++ a :: post) ≠ crc16 (pre ++ b :: post) := by
  have hab : a ≠ b := by
    intro e
    rw [e, Nat.xor_self] at hbit
    exact absurd hbit.symm (by positivity)
  rw [crc16_xmodem, crc16_xmodem]
  unfold xmodem
  rw [List.foldl_append, List.foldl_append, List.foldl_cons, List.foldl_cons]
  have hr : pre.foldl xmodemByte 0 < 2 ^ 16 := xmodem_fold_lt pre (by norm_num)
  apply xmodem_fold_ne post hpost (xmodemByte_lt _ a) (xmodemByte_lt _ b)
  intro hc
  have h1 := Nat.xor_right_inj.1 (xmodemByte_inj hr hr ha hb hc)
  rw [Nat.shiftLeft_eq, Nat.shiftLeft_eq] at h1
  omega

/-- Witness of C15: the sequences `[0x31, 0x00, 0x33]` and `[0x31, 0x04, 0x33]`
differ in bit 2 of the middle byte. -/
theorem crc16_single_bit_witness :
    crc16 ([0x31] ++ 0x00 :: [0x33]) ≠ crc16 ([0x31] ++ 0x04 :: [0x33]) :=
  crc16_single_bit [0x31] [0x33] 0x00 0x04 2 (by decide) (by decide) (by decide) (by decide)

/-! ## The header of a line -/

/-- Either the four header bytes of the line are well formed, or the values
that `getbyte` returns for them satisfy the `Malformed line` test. -/
theorem header_cases (line : List Nat) :
    (∃ len hi lo type : Nat, BytesAt line 1 [len, hi, lo, type]) ∨
    ∀ (len hi lo type : Int) (p1 p2 p3 p4 : Nat), getbyte line 1 = (len, p1) →
      getbyte line p1 = (hi, p2) → getbyte line p2 = (lo, p3) → getbyte line p3 = (type, p4) →
      len < 0 ∨ intOr (intShl hi 8) lo < 0 ∨ type < 0 ∨ (type ≠ 0 ∧ len ≠ 0) := by
  rcases good_run line 4 1 with ⟨bs, hl, hbs⟩ | ⟨bs, hl, hbs, hb⟩
  · left
    match bs, hl, hbs with
    | [a, b, c, d], _, hbs => exact ⟨a, b, c, d, hbs⟩
  · right
    intro len hi lo type p1 p2 p3 p4 h1 h2 h3 h4
    have hfail := getbyte_bad hb
    match bs, hl, hbs, hfail with
    | [], _, _, hfail =>
      left
      rw [show 1 + 2 * ([] : List Nat).length = 1 by rfl, h1] at hfail
      rw [(Prod.mk.inj hfail).1]
      decide
    | [a], _, hbs, hfail =>
      right; left
      obtain ⟨g1, -, -⟩ := bytesAt_cons hbs
      rw [h1] at g1
      obtain ⟨-, rfl⟩ := Prod.mk.inj g1
      rw [show 1 + 2 * [a].length = 1 + 2 by rfl] at hfail
      rw [hfail] at h2
      obtain ⟨rfl, rfl⟩ := Prod.mk.inj h2
      rw [hfail] at h3
      obtain ⟨rfl, rfl⟩ := Prod.mk.inj h3
      decide
    | [a, b], _, hbs, hfail =>
      right; left
      obtain ⟨g1, -, hbs⟩ := bytesAt_cons hbs
      obtain ⟨g2, hb2, -⟩ := bytesAt_cons hbs
      rw [h1] at g1
      obtain ⟨-, rfl⟩ := Prod.mk.inj g1
      rw [h2] at g2
      obtain ⟨rfl, rfl⟩ := Prod.mk.inj g2
      rw [show 1 + 2 * [a, b].length = 1 + 2 + 2 by rfl] at hfail
      rw [hfail] at h3
      obtain ⟨rfl, rfl⟩ := Prod.mk.inj h3
      rw [intOr_neg_one b hb2]
      decide
    | [a, b, c], _, hbs, hfail =>
      right; right; left
      obtain ⟨g1, -, hbs⟩ := bytesAt_cons hbs
      obtain ⟨g2, -, hbs⟩ := bytesAt_cons hbs
      obtain ⟨g3, -, -⟩ := bytesAt_cons hbs
      rw [h1] at g1
      obtain ⟨-, rfl⟩ := Prod.mk.inj g1
      rw [h2] at g2
      obtain ⟨-, rfl⟩ := Prod.mk.inj g2
      rw [h3] at g3
      obtain ⟨-, rfl⟩ := Prod.mk.inj g3
      rw [show 1 + 2 * [a, b, c].length = 1 + 2 + 2 + 2 by rfl] at hfail
      rw [hfail] at h4
      rw [← (Prod.mk.inj h4).1]
      decide
    | _ :: _ :: _ :: _ :: _, hl, _, _ => simp at hl; omega

/-! ## C17: zero-length records -/

theorem isBankSwitch_iff_take (line : List Nat) :
    isBankSwitch line = true ↔ line.take 11 = ascii ":00000155AA" := by
  rw [isBankSwitch_iff]
  constructor
  · rintro ⟨tail, rfl⟩
    exact List.take_left' (by decide)
  · intro h
    exact ⟨line.drop 11, by rw [← h, List.take_append_drop]⟩

theorem isEof_iff_take (line : List Nat) :
    isEof line = true ↔ line.take 11 = ascii ":00000001FF" := by
  rw [isEof_iff]
  constructor
  · rintro ⟨tail, rfl⟩
    exact List.take_left' (by decide)
  · intro h
    exact ⟨line.drop 11, by rw [← h, List.take_append_drop]⟩

/-- The outcome of `hexLine` on a line whose length field is `00`. -/
theorem hexLine_zero_length {line : List Nat} (h0 : charAt line 0 = 58)
    (h1 : charAt line 1 = 48) (h2 : charAt line 2 = 48) (bank : Int) (fwbuf : List Nat) :
    hexLine line bank fwbuf =
      if isBankSwitch line then
        if bank + 1 ≥ 16 then .fail .tooLarge else .next (bank + 1) fwbuf
      else if isEof line then .stop bank fwbuf
      else .fail (.malformedLine (cstr line)) := by
  cases hb : isBankSwitch line with
  | true => rw [hexLine_bankSwitch hb]; simp
  | false =>
    cases he : isEof line with
    | true => rw [hexLine_eof he]; simp
    | false =>
      have g1 : getbyte line 1 = (0, 3) := by
        have := (@getbyte_ok line 1 0 0 (by rw [h1]; decide) (by rw [h2]; decide)).1
        simpa using this
      rcases g2 : getbyte line 3 with ⟨hi, p2⟩
      rcases g3 : getbyte line p2 with ⟨lo, p3⟩
      rcases g4 : getbyte line p3 with ⟨type, p4⟩
      rw [hexLine_of_header h0 g1 g2 g3 g4, hb, he]
      simp only [Bool.false_eq_true, if_false]
      split_ifs <;> rfl

/-- C17: a line whose length field is `00` is accepted only if its first 11
characters are literally `:00000155AA` (bank switch) or `:00000001FF` (end of
file), whatever follows them; every other line with length field `00` fails with
`Malformed line`, and so does the decode of every file that arrives at it. -/
theorem zero_length_record (line : List Nat) (h0 : charAt line 0 = 58)
    (h1 : charAt line 1 = 48) (h2 : charAt line 2 = 48) :
    (isBankSwitch line = true ↔ line.take 11 = ascii ":00000155AA") ∧
    (isEof line = true ↔ line.take 11 = ascii ":00000001FF") ∧
    (∀ bank fwbuf, hexLine line bank fwbuf =
      if line.take 11 = ascii ":00000155AA" then
        if bank + 1 ≥ 16 then .fail .tooLarge else .next (bank + 1) fwbuf
      else if line.take 11 = ascii ":00000001FF" then .stop bank fwbuf
      else .fail (.malformedLine (cstr line))) ∧
    (line.take 11 ≠ ascii ":00000155AA" → line.take 11 ≠ ascii ":00000001FF" →
      ∀ f bank fwbuf, f.length ≠ FLASHSIZE → ReachesLine f line bank fwbuf →
        loadfirmware f = .error (.malformedLine (cstr line))) := by
  have key : ∀ bank fwbuf, hexLine line bank fwbuf =
      if line.take 11 = ascii ":00000155AA" then
        if bank + 1 ≥ 16 then .fail .tooLarge else .next (bank + 1) fwbuf
      else if line.take 11 = ascii ":00000001FF" then .stop bank fwbuf
      else .fail (.malformedLine (cstr line)) := by
    intro bank fwbuf
    rw [hexLine_zero_length h0 h1 h2]
    simp only [isBankSwitch_iff_take, isEof_iff_take]
  refine ⟨isBankSwitch_iff_take line, isEof_iff_take line, key, ?_⟩
  intro hb he f bank fwbuf hf hr
  apply loadfirmware_of_fail hf hr
  rw [key, if_neg hb, if_neg he]

/-- Witness of C17: the zero-length type-0 record `:0000000000`, the
lower-case spelling `:00000155aa` and the line `:00000000AA` are malformed; the
line `:00000155AAjunk` is a bank switch. -/
theorem zero_length_record_witness :
    loadfirmware (ascii ":0000000000\n") =
      .error (.malformedLine (cstr (ascii ":0000000000\n"))) ∧
    loadfirmware (ascii ":00000155aa\n") =
      .error (.malformedLine (cstr (ascii ":00000155aa\n"))) ∧
    loadfirmware (ascii ":00000000AA\n") =
      .error (.malformedLine (cstr (ascii ":00000000AA\n"))) ∧
    hexLine (ascii ":00000155AAjunk\n") 0 blankImage = .next (0 + 1) blankImage :=
  ⟨(zero_length_record (ascii ":0000000000\n") (by decide) (by decide) (by decide)).2.2.2
      (by decide) (by decide) (ascii ":0000000000\n") 0 blankImage (by decide)
      ⟨[], [], by decide, rfl⟩,
   (zero_length_record (ascii ":00000155aa\n") (by decide) (by decide) (by decide)).2.2.2
      (by decide) (by decide) (ascii ":00000155aa\n") 0 blankImage (by decide)
      ⟨[], [], by decide, rfl⟩,
   (zero_length_record (ascii ":00000000AA\n") (by decide) (by decide) (by decide)).2.2.2
      (by decide) (by decide) (ascii ":00000000AA\n") 0 blankImage (by decide)
      ⟨[], [], by decide, rfl⟩,
   by
    rw [(zero_length_record (ascii ":00000155AAjunk\n") (by decide) (by decide)
      (by decide)).2.2.1 0 blankImage, if_pos (by decide), if_neg (by decide)]⟩

/-! ## C19: the bank counter -/

theorem bankTrace_cons (l : List Nat) (ls : List (List Nat)) (bank : Int) (fwbuf : List Nat) :
    bankTrace (l :: ls) bank fwbuf =
      bank :: (match hexLine l bank fwbuf with
        | .next b fw => bankTrace ls b fw
        | _ => []) := by
  simp only [bankTrace]

theorem bankTrace_head (ls : List (List Nat)) (bank : Int) (fwbuf : List Nat) :
    (bankTrace ls bank fwbuf).head? = some bank := by
  cases ls with
  | nil => rfl
  | cons l ls => rw [bankTrace_cons]; rfl

/-- The bank counter along the loop: it stays between its initial value and
15 and moves by steps of 0 or 1; when the loop ends without a failure, the last
value of the trace is the final bank counter. -/
theorem bankTrace_invariant (ls : List (List Nat)) (bank : Int) (fwbuf : List Nat)
    (hb : bank ≤ 15) :
    (∀ v ∈ bankTrace ls bank fwbuf, bank ≤ v ∧ v ≤ 15) ∧
    (bankTrace ls bank fwbuf).Chain' (fun x y => y = x ∨ y = x + 1) ∧
    (∀ b fw, hexLines ls bank fwbuf = .next b fw ∨ hexLines ls bank fwbuf = .stop b fw →
      (bankTrace ls bank fwbuf).getLast? = some b) := by
  induction ls generalizing bank fwbuf with
  | nil =>
    refine ⟨fun v hv => ?_, by simp [bankTrace], fun b fw h => ?_⟩
    · simp only [bankTrace, List.mem_singleton] at hv
      omega
    · simp only [hexLines] at h
      rcases h with h | h
      · injection h with e1 e2
        simp [bankTrace, e1]
      · exact absurd h (by simp)
  | cons l ls ih =>
    rw [bankTrace_cons, hexLines_cons]
    cases hl : hexLine l bank fwbuf with
    | next b1 fw1 =>
      obtain ⟨-, hstep, hsw⟩ := hexLine_next_inv hl
      have hb1 : bank ≤ b1 ∧ b1 ≤ 15 ∧ (b1 = bank ∨ b1 = bank + 1) := by
        cases hc : isBankSwitch l with
        | true =>
          have := (hsw hc).1
          rw [hc] at hstep
          simp only [if_true] at hstep
          omega
        | false =>
          rw [hc] at hstep
          simp only [Bool.false_eq_true, if_false] at hstep
          omega
      obtain ⟨i1, i2, i3⟩ := ih b1 fw1 hb1.2.1
      simp only
      refine ⟨fun v hv => ?_, ?_, fun b fw h => ?_⟩
      · rcases List.mem_cons.1 hv with rfl | hv
        · omega
        · have := i1 v hv
          omega
      · rw [List.chain'_cons']
        refine ⟨fun y hy => ?_, i2⟩
        rw [bankTrace_head] at hy
        simp only [Option.mem_def, Option.some.injEq] at hy
        rw [← hy]
        exact hb1.2.2
      · have hne : bankTrace ls b1 fw1 ≠ [] := by
          intro e
          have := bankTrace_head ls b1 fw1
          rw [e] at this
          simp at this
        obtain ⟨y, ys, hy⟩ := List.exists_cons_of_ne_nil hne
        have := i3 b fw h
        rw [hy] at this ⊢
        rw [List.getLast?_cons_cons]
        exact this
    | stop b1 fw1 =>
      simp only
      refine ⟨fun v hv => ?_, by simp, fun b fw h => ?_⟩
      · simp only [List.mem_singleton] at hv
        omega
      · obtain ⟨-, hb1, -⟩ := hexLine_stop_inv hl
        rcases h with h | h
        · exact absurd h (by simp)
        · injection h with e1 e2
          simp [← e1, hb1]
    | fail e =>
      simp only
      refine ⟨fun v hv => ?_, by simp, fun b fw h => ?_⟩
      · simp only [List.mem_singleton] at hv
        omega
      · rcases h with h | h <;> exact absurd h (by simp)

/-- A list of integers that moves by steps of 0 or 1 takes every value between
its first and its last element. -/
theorem chain_takes_all (t : List Int) (a z : Int)
    (hc : t.Chain' (fun x y => y = x ∨ y = x + 1)) (hh : t.head? = some a)
    (hl : t.getLast? = some z) (k : Int) (hak : a ≤ k) (hkz : k ≤ z) : k ∈ t := by
  induction t generalizing a with
  | nil => simp at hh
  | cons x xs ih =>
    simp only [List.head?_cons, Option.some.injEq] at hh
    subst hh
    by_cases hx : k = x
    · simp [hx]
    · cases xs with
      | nil =>
        simp only [List.getLast?_singleton, Option.some.injEq] at hl
        omega
      | cons y ys =>
        rw [List.chain'_cons] at hc
        have hl2 : (y :: ys).getLast? = some z := by
          rw [← hl, List.getLast?_cons_cons]
        exact List.mem_cons_of_mem _ (ih y hc.2 rfl hl2 (by omega))

theorem hexDecode_ok {f img : List Nat} (h : hexDecode f = .ok img) :
    hexLines (lines f) 0 blankImage = .next 15 img ∨
      hexLines (lines f) 0 blankImage = .stop 15 img := by
  rw [hexDecode_eq] at h
  cases hr : hexLines (lines f) 0 blankImage with
  | next b fw =>
    rw [hr] at h
    by_cases h15 : b = 15
    · simp [afterLoop, h15] at h
      left; rw [h15, h]
    · simp [afterLoop, h15] at h
  | stop b fw =>
    rw [hr] at h
    by_cases h15 : b = 15
    · simp [afterLoop, h15] at h
      right; rw [h15, h]
    · simp [afterLoop, h15] at h
  | fail e =>
    rw [hr] at h
    simp [afterLoop] at h

/-- C19: along the hex decode loop of every input the bank counter starts at
0, stays in `0..15` in every state that has not failed, and moves from one state
to the next by 0 or 1; a line increases it by exactly 1 when it is a bank-switch
sentinel and leaves it unchanged otherwise; on a successful decode the trace ends
at 15 and takes every value of `0..15`. -/
theorem bank_counter (f : List Nat) :
    (bankTrace (lines f) 0 blankImage).head? = some 0 ∧
    (∀ v ∈ bankTrace (lines f) 0 blankImage, 0 ≤ v ∧ v ≤ 15) ∧
    (bankTrace (lines f) 0 blankImage).Chain' (fun x y => y = x ∨ y = x + 1) ∧
    (∀ l bank fwbuf b fw, hexLine l bank fwbuf = .next b fw →
      b = bank + (if isBankSwitch l then 1 else 0)) ∧
    (∀ l bank fwbuf b fw, hexLine l bank fwbuf = .stop b fw → b = bank) ∧
    (∀ img, hexDecode f = .ok img →
      (bankTrace (lines f) 0 blankImage).getLast? = some 15 ∧
      ∀ k : Int, 0 ≤ k → k ≤ 15 → k ∈ bankTrace (lines f) 0 blankImage) := by
  obtain ⟨i1, i2, i3⟩ := bankTrace_invariant (lines f) 0 blankImage (by norm_num)
  refine ⟨bankTrace_head _ _ _, i1, i2, fun l bank fwbuf b fw h => (hexLine_next_inv h).2.1,
    fun l bank fwbuf b fw h => (hexLine_stop_inv h).2.1, fun img himg => ?_⟩
  have hlast := i3 15 img (hexDecode_ok himg)
  exact ⟨hlast, fun k h0 h15 =>
    chain_takes_all _ 0 15 i2 (bankTrace_head _ _ _) hlast k h0 h15⟩

theorem hexDecode_fifteen_eof :
    hexDecode (repeatLines 15 (ascii ":00000155AA\n") ++ ascii ":00000001FF\n") =
      .ok blankImage := by
  rw [hexDecode_eq, lines_fifteen_eof, hexLines_append,
    hexLines_bankSwitches 15 _ bankSwitch_nl 0 blankImage (by decide)]
  simp only
  rw [hexLines_cons, hexLine_eof eof_nl]
  rfl

/-- Witness of C19 on the file of fifteen bank-switch lines and the
end-of-file sentinel. -/
theorem bank_counter_witness :
    (bankTrace (lines (repeatLines 15 (ascii ":00000155AA\n") ++ ascii ":00000001FF\n")) 0
      blankImage).getLast? = some 15 ∧
    ∀ k : Int, 0 ≤ k → k ≤ 15 →
      k ∈ bankTrace (lines (repeatLines 15 (ascii ":00000155AA\n") ++
        ascii ":00000001FF\n")) 0 blankImage :=
  (bank_counter (repeatLines 15 (ascii ":00000155AA\n") ++ ascii ":00000001FF\n")).2.2.2.2.2
    blankImage hexDecode_fifteen_eof

/-! ## The stores of the payload loop -/

theorem applyStores_nil (fwbuf : List Nat) : applyStores fwbuf [] = fwbuf := rfl

theorem applyStores_cons (fwbuf : List Nat) (s : Int × Int) (ss : List (Int × Int)) :
    applyStores fwbuf (s :: ss) = applyStores (fwbuf.set s.1.toNat s.2.toNat) ss := rfl

theorem applyStores_append (fwbuf : List Nat) (xs ys : List (Int × Int)) :
    applyStores fwbuf (xs ++ ys) = applyStores (applyStores fwbuf xs) ys := by
  unfold applyStores
  rw [List.foldl_append]

theorem applyStores_length (fwbuf : List Nat) (ss : List (Int × Int)) :
    (applyStores fwbuf ss).length = fwbuf.length := by
  induction ss generalizing fwbuf with
  | nil => rfl
  | cons s ss ih => rw [applyStores_cons, ih, List.length_set]

theorem applyStores_untouched (fwbuf : List Nat) (ss : List (Int × Int)) (j : Nat)
    (h : ∀ s ∈ ss, s.1.toNat ≠ j) : (applyStores fwbuf ss)[j]? = fwbuf[j]? := by
  induction ss generalizing fwbuf with
  | nil => rfl
  | cons s ss ih =>
    rw [applyStores_cons, ih _ (fun x hx => h x (List.mem_cons_of_mem _ hx)),
      List.getElem?_set_ne (h s (by simp))]

theorem payloadStores_succ (n : Nat) (line : List Nat) (p : Nat) (bank offset : Int) :
    payloadStores (n + 1) line p bank offset =
      if (getbyte line p).1 < 0 then []
      else
        (intOr (intShl bank 16) offset, (getbyte line p).1) ::
          payloadStores n line (getbyte line p).2 bank (offset + 1) := by
  simp only [payloadStores]

theorem payloadLoop_succ (n : Nat) (line : List Nat) (p : Nat) (bank offset hexsum : Int)
    (fwbuf : List Nat) :
    payloadLoop (n + 1) line p bank offset hexsum fwbuf =
      if (getbyte line p).1 < 0 then none
      else
        payloadLoop n line (getbyte line p).2 bank (offset + 1)
          (intAnd (hexsum + (getbyte line p).1) 0xff)
          (fwbuf.set (intOr (intShl bank 16) offset).toNat (getbyte line p).1.toNat) := by
  simp only [payloadLoop]

/-- The image that the payload loop returns is the image after its stores. -/
theorem payloadLoop_stores (n : Nat) (line : List Nat) (p : Nat) (bank offset hexsum : Int)
    (fwbuf : List Nat) {q : Nat} {hs : Int} {fw : List Nat}
    (h : payloadLoop n line p bank offset hexsum fwbuf = some (q, hs, fw)) :
    fw = applyStores fwbuf (payloadStores n line p bank offset) := by
  induction n generalizing p offset hexsum fwbuf with
  | zero =>
    simp only [payloadLoop, Option.some.injEq, Prod.mk.injEq] at h
    rw [← h.2.2]
    rfl
  | succ n ih =>
    rw [payloadLoop_succ] at h
    rw [payloadStores_succ]
    split_ifs at h ⊢ with hneg
    rw [applyStores_cons]
    exact ih _ _ _ _ h

theorem lineStores_of_header {line : List Nat} {bank : Int}
    {len hi lo type : Int} {p1 p2 p3 p4 : Nat} (h0 : charAt line 0 = 58)
    (h1 : getbyte line 1 = (len, p1)) (h2 : getbyte line p1 = (hi, p2))
    (h3 : getbyte line p2 = (lo, p3)) (h4 : getbyte line p3 = (type, p4)) :
    lineStores line bank =
      if len < 0 ∨ intOr (intShl hi 8) lo < 0 ∨ type < 0 ∨ (type ≠ 0 ∧ len ≠ 0) then []
      else if len = 0 then []
      else payloadStores len.toNat line p4 bank (intOr (intShl hi 8) lo) := by
  unfold lineStores
  rw [if_neg (by simp [h0])]
  simp only [h1, h2, h3, h4]

/-- The image after a line that did not fail is the image after the stores of
the line. -/
theorem hexLine_stores {line : List Nat} {bank b : Int} {fwbuf fw : List Nat}
    (h : hexLine line bank fwbuf = .next b fw ∨ hexLine line bank fwbuf = .stop b fw) :
    fw = applyStores fwbuf (lineStores line bank) := by
  by_cases h0 : charAt line 0 = 58
  · rcases h1 : getbyte line 1 with ⟨len, p1⟩
    rcases h2 : getbyte line p1 with ⟨hi, p2⟩
    rcases h3 : getbyte line p2 with ⟨lo, p3⟩
    rcases h4 : getbyte line p3 with ⟨type, p4⟩
    rw [hexLine_of_header h0 h1 h2 h3 h4] at h
    rw [lineStores_of_header h0 h1 h2 h3 h4]
    by_cases c1 : len < 0 ∨ intOr (intShl hi 8) lo < 0 ∨ type < 0 ∨ (type ≠ 0 ∧ len ≠ 0)
    · rw [if_pos c1] at h
      rcases h with h | h <;> exact absurd h (by simp)
    · rw [if_neg c1] at h ⊢
      by_cases c2 : len = 0
      · rw [if_pos c2] at h ⊢
        rw [applyStores_nil]
        split_ifs at h <;> rcases h with h | h <;>
          first
          | exact (LineResult.next.inj h).2.symm
          | exact (LineResult.stop.inj h).2.symm
          | exact False.elim h
      · rw [if_neg c2] at h ⊢
        cases hp : payloadLoop len.toNat line p4 bank (intOr (intShl hi 8) lo)
            (intAnd (len + intShr (intOr (intShl hi 8) lo) 8 +
              intAnd (intOr (intShl hi 8) lo) 0xff) 0xff) fwbuf with
        | none =>
          rw [hp] at h
          rcases h with h | h <;> exact absurd h (by simp)
        | some r =>
          obtain ⟨q, hs, fw2⟩ := r
          rw [hp] at h
          simp only at h
          have := payloadLoop_stores _ _ _ _ _ _ _ hp
          split_ifs at h <;> rcases h with h | h <;>
            first
            | (rw [← (LineResult.next.inj h).2]; exact this)
            | exact False.elim h
  · have e : lineStores line bank = [] := by
      unfold lineStores
      rw [if_pos h0]
    have e2 : hexLine line bank fwbuf = .next bank fwbuf := by
      unfold hexLine
      rw [if_pos h0]
    rw [e, applyStores_nil]
    rw [e2] at h
    rcases h with h | h
    · injection h with e3 e4
      exact e4.symm
    · exact absurd h (by simp)

theorem loopStores_cons (l : List Nat) (ls : List (List Nat)) (bank : Int) (fwbuf : List Nat) :
    loopStores (l :: ls) bank fwbuf =
      lineStores l bank ++ (match hexLine l bank fwbuf with
        | .next b fw => loopStores ls b fw
        | _ => []) := by
  simp only [loopStores]

/-- The image at the end of a loop that did not fail is the initial image
after the stores of the loop. -/
theorem hexLines_stores (ls : List (List Nat)) (bank b : Int) (fwbuf fw : List Nat)
    (h : hexLines ls bank fwbuf = .next b fw ∨ hexLines ls bank fwbuf = .stop b fw) :
    fw = applyStores fwbuf (loopStores ls bank fwbuf) := by
  induction ls generalizing bank fwbuf with
  | nil =>
    simp only [hexLines] at h
    rcases h with h | h
    · injection h with e1 e2
      rw [← e2]
      rfl
    · exact absurd h (by simp)
  | cons l ls ih =>
    rw [hexLines_cons] at h
    rw [loopStores_cons, applyStores_append]
    cases hl : hexLine l bank fwbuf with
    | next b1 fw1 =>
      rw [hl] at h
      simp only at h ⊢
      rw [← hexLine_stores (Or.inl hl)]
      exact ih b1 fw1 h
    | stop b1 fw1 =>
      rw [hl] at h
      simp only at h ⊢
      rw [applyStores_nil, ← hexLine_stores (Or.inr hl)]
      rcases h with h | h
      · exact absurd h (by simp)
      · injection h with e1 e2
        exact e2.symm
    | fail e =>
      rw [hl] at h
      rcases h with h | h <;> exact absurd h (by simp)

/-! ## C20: every store is inside the image -/

theorem bank_index (b off : Nat) (hb : b ≤ 15) (ho : off < 2 ^ 17) :
    intOr (intShl (b : Int) 16) (off : Int) = ((b <<< 16 ||| off : Nat) : Int) ∧
      b <<< 16 ||| off < 2 ^ 20 := by
  have hs : b <<< 16 < 2 ^ 20 := by rw [Nat.shiftLeft_eq]; omega
  rw [intShl_natCast (by omega) (by omega), intOr_natCast (by omega) (by omega)]
  exact ⟨rfl, Nat.or_lt_two_pow hs (by omega)⟩

theorem payloadStores_bound (n : Nat) (line : List Nat) (p b off : Nat) (hb : b ≤ 15)
    (ho : off + n ≤ 2 ^ 17) :
    ∀ s ∈ payloadStores n line p (b : Int) (off : Int), 0 ≤ s.1 ∧ s.1 < FLASHSIZE := by
  induction n generalizing p off with
  | zero => simp [payloadStores]
  | succ n ih =>
    intro s hs
    rw [payloadStores_succ] at hs
    split_ifs at hs with hneg
    · simp at hs
    · rcases List.mem_cons.1 hs with rfl | hs
      · obtain ⟨e, hlt⟩ := bank_index b off hb (by omega)
        simp only
        rw [e]
        have hF : ((FLASHSIZE : Nat) : Int) = 2 ^ 20 := by norm_num [FLASHSIZE]
        constructor
        · positivity
        · rw [hF]; exact_mod_cast hlt
      · have e : (off : Int) + 1 = ((off + 1 : Nat) : Int) := by push_cast; rfl
        rw [e] at hs
        exact ih _ (off + 1) (by omega) s hs

theorem lineStores_bound (line : List Nat) (b : Nat) (hb : b ≤ 15) :
    ∀ s ∈ lineStores line (b : Int), 0 ≤ s.1 ∧ s.1 < FLASHSIZE := by
  intro s hs
  by_cases h0 : charAt line 0 = 58
  · rcases h1 : getbyte line 1 with ⟨len, p1⟩
    rcases h2 : getbyte line p1 with ⟨hi, p2⟩
    rcases h3 : getbyte line p2 with ⟨lo, p3⟩
    rcases h4 : getbyte line p3 with ⟨type, p4⟩
    rw [lineStores_of_header h0 h1 h2 h3 h4] at hs
    rcases header_cases line with ⟨len', hi', lo', type', hbs⟩ | hmal
    · obtain ⟨g1, b1, hbs⟩ := bytesAt_cons hbs
      obtain ⟨g2, b2, hbs⟩ := bytesAt_cons hbs
      obtain ⟨g3, b3, hbs⟩ := bytesAt_cons hbs
      rw [h1] at g1
      obtain ⟨rfl, rfl⟩ := Prod.mk.inj g1
      rw [h2] at g2
      obtain ⟨rfl, rfl⟩ := Prod.mk.inj g2
      rw [h3] at g3
      obtain ⟨rfl, rfl⟩ := Prod.mk.inj g3
      rw [offset_eq hi' lo' b2 b3] at hs
      split_ifs at hs
      · simp at hs
      · simp at hs
      · rw [Int.toNat_ofNat] at hs
        exact payloadStores_bound len' line _ b (hi' * 256 + lo') hb (by omega) s hs
    · rw [if_pos (hmal len hi lo type p1 p2 p3 p4 h1 h2 h3 h4)] at hs
      simp at hs
  · unfold lineStores at hs
    rw [if_pos h0] at hs
    simp at hs

theorem loopStores_bound (ls : List (List Nat)) (b : Nat) (hb : b ≤ 15) (fwbuf : List Nat) :
    ∀ s ∈ loopStores ls (b : Int) fwbuf, 0 ≤ s.1 ∧ s.1 < FLASHSIZE := by
  induction ls generalizing b fwbuf with
  | nil => simp [loopStores]
  | cons l ls ih =>
    intro s hs
    rw [loopStores_cons] at hs
    rcases List.mem_append.1 hs with hs | hs
    · exact lineStores_bound l b hb s hs
    · cases hl : hexLine l (b : Int) fwbuf with
      | next b1 fw1 =>
        rw [hl] at hs
        obtain ⟨-, hstep, hsw⟩ := hexLine_next_inv hl
        have hb1 : ∃ c : Nat, b1 = (c : Int) ∧ c ≤ 15 := by
          cases hc : isBankSwitch l with
          | true =>
            have := (hsw hc).1
            rw [hc] at hstep
            simp only [if_true] at hstep
            exact ⟨b + 1, by rw [hstep]; push_cast; rfl, by omega⟩
          | false =>
            rw [hc] at hstep
            simp only [Bool.false_eq_true, if_false] at hstep
            exact ⟨b, by rw [hstep]; simp, hb⟩
        obtain ⟨c, rfl, hc⟩ := hb1
        exact ih c hc fw1 s hs
      | stop b1 fw1 => rw [hl] at hs; simp at hs
      | fail e => rw [hl] at hs; simp at hs

/-- C20: for every input, every store `fwbuf[(bank << 16) | offset]` that the
hex decode loop executes (the stores before a failure included) has an index in
`0 .. FLASHSIZE - 1`; in general, a bank counter in `0..15` and an offset in
`0 .. 0xFFFF + 254` give an index in that range. -/
theorem stores_in_bounds :
    (∀ f : List Nat, ∀ s ∈ loopStores (lines f) 0 blankImage, 0 ≤ s.1 ∧ s.1 < FLASHSIZE) ∧
    (∀ bank offset : Int, 0 ≤ bank → bank ≤ 15 → 0 ≤ offset → offset ≤ 0xFFFF + 254 →
      0 ≤ intOr (intShl bank 16) offset ∧ intOr (intShl bank 16) offset < FLASHSIZE) := by
  constructor
  · intro f s hs
    exact loopStores_bound (lines f) 0 (by norm_num) blankImage s hs
  · intro bank offset hb0 hb15 ho0 ho
    obtain ⟨b, rfl⟩ := Int.eq_ofNat_of_zero_le hb0
    obtain ⟨off, rfl⟩ := Int.eq_ofNat_of_zero_le ho0
    obtain ⟨e, hlt⟩ := bank_index b off (by omega) (by omega)
    rw [e]
    have hF : ((FLASHSIZE : Nat) : Int) = 2 ^ 20 := by norm_num [FLASHSIZE]
    constructor
    · positivity
    · rw [hF]; exact_mod_cast hlt

/-- Witness of C20: bank 15 and offset `0xFFFF + 254`. -/
theorem stores_in_bounds_witness :
    0 ≤ intOr (intShl 15 16) (0xFFFF + 254) ∧ intOr (intShl 15 16) (0xFFFF + 254) < FLASHSIZE :=
  stores_in_bounds.2 15 (0xFFFF + 254) (by norm_num) (by norm_num) (by norm_num) (by norm_num)

/-! ## C14: the bytes that no record writes -/

/-- C14: when the hex decoder returns an image, the image has `FLASHSIZE`
bytes, it is the blank image after the stores of the loop, and every index that
is not the index of a store of the payload loop holds `0xFF`. -/
theorem unwritten_bytes_blank (f img : List Nat) (h : hexDecode f = .ok img) :
    img.length = FLASHSIZE ∧
    img = applyStores blankImage (loopStores (lines f) 0 blankImage) ∧
    ∀ j, j < FLASHSIZE → (∀ s ∈ loopStores (lines f) 0 blankImage, s.1 ≠ (j : Int)) →
      img[j]? = some 0xFF := by
  have himg : img = applyStores blankImage (loopStores (lines f) 0 blankImage) :=
    hexLines_stores (lines f) 0 15 blankImage img (hexDecode_ok h)
  have hbl : blankImage.length = FLASHSIZE := List.length_replicate _ _
  refine ⟨by rw [himg, applyStores_length, hbl], himg, fun j hj hnot => ?_⟩
  rw [himg, applyStores_untouched]
  · unfold blankImage
    rw [List.getElem?_replicate, if_pos hj]
  · intro s hs hc
    have h0 := (loopStores_bound (lines f) 0 (by norm_num) blankImage s hs).1
    apply hnot s hs
    rw [← hc, Int.toNat_of_nonneg h0]

/-- Witness of C14 on the file of fifteen bank-switch lines and the
end-of-file sentinel, which stores nothing. -/
theorem unwritten_bytes_blank_witness :
    blankImage.length = FLASHSIZE ∧
    blankImage = applyStores blankImage
      (loopStores (lines (repeatLines 15 (ascii ":00000155AA\n") ++ ascii ":00000001FF\n")) 0
        blankImage) ∧
    ∀ j, j < FLASHSIZE →
      (∀ s ∈ loopStores (lines (repeatLines 15 (ascii ":00000155AA\n") ++
        ascii ":00000001FF\n")) 0 blankImage, s.1 ≠ (j : Int)) →
      blankImage[j]? = some 0xFF :=
  unwritten_bytes_blank _ blankImage hexDecode_fifteen_eof

/-! ## C16: where the payload of a record is stored -/

theorem or_eq_add_of_lt (b x : Nat) (hx : x < 2 ^ 16) : b <<< 16 ||| x = b <<< 16 + x := by
  rw [Nat.shiftLeft_eq, Nat.mul_comm]
  exact (Nat.mul_add_lt_is_or hx b).symm

theorem or_eq_add_of_even (b x : Nat) (hb : b % 2 = 0) (hx : x < 2 ^ 17) :
    b <<< 16 ||| x = b <<< 16 + x := by
  obtain ⟨c, rfl⟩ : ∃ c, b = 2 * c := ⟨b / 2, by omega⟩
  have e : (2 * c) <<< 16 = 2 ^ 17 * c := by rw [Nat.shiftLeft_eq]; ring
  rw [e]
  exact (Nat.mul_add_lt_is_or hx c).symm

/-- The image after the payload loop when the indices of the stores are
consecutive from `base` on. -/
theorem writePayload_contiguous (bank : Int) (p : List Nat) (a base : Nat) (fwbuf : List Nat)
    (hidx : ∀ i, i < p.length →
      (intOr (intShl bank 16) ((a + i : Nat) : Int)).toNat = base + i)
    (h : base + p.length ≤ fwbuf.length) (j : Nat) :
    (writePayload bank p (a : Int) fwbuf)[j]? =
      if base ≤ j ∧ j < base + p.length then p[j - base]? else fwbuf[j]? := by
  induction p generalizing a base fwbuf with
  | nil =>
    rw [if_neg (by simp)]
    rfl
  | cons b bs ih =>
    have hstep : writePayload bank (b :: bs) (a : Int) fwbuf =
        writePayload bank bs (((a + 1 : Nat)) : Int) (fwbuf.set base b) := by
      show writePayload bank bs ((a : Int) + 1) _ = _
      have := hidx 0 (by simp)
      rw [Nat.add_zero, Nat.add_zero] at this
      rw [this]
      norm_cast
    simp only [List.length_cons] at h hidx ⊢
    rw [hstep, ih (a + 1) (base + 1) (fwbuf.set base b)
      (fun i hi => by
        have := hidx (i + 1) (by omega)
        rw [show a + 1 + i = a + (i + 1) by omega, this]
        omega)
      (by rw [List.length_set]; omega)]
    by_cases hj : j = base
    · subst hj
      rw [if_neg (by omega), if_pos (by omega), List.getElem?_set_self (by omega)]
      simp
    · rw [List.getElem?_set_ne (fun e => hj e.symm)]
      by_cases hin : base + 1 ≤ j ∧ j < base + 1 + bs.length
      · rw [if_pos hin, if_pos (by omega)]
        obtain ⟨m, hm⟩ : ∃ m, j - base = m + 1 := ⟨j - base - 1, by omega⟩
        rw [hm, List.getElem?_cons_succ, show j - (base + 1) = m by omega]
      · rw [if_neg hin, if_neg (by omega)]

/-- C16, counterexample: after one bank-switch line the record
`:02FFFF00AABB9B` (address `0xFFFF`, payload `AA BB`) is accepted in bank 1; its
second byte goes to index `0x10000`, and index `((1 << 16) | 0xFFFF) + 1 =
0x20000` still holds `0xFF`. -/
theorem odd_bank_crossing_wraps :
    ReachesLine (ascii ":00000155AA\n:02FFFF00AABB9B\n") (ascii ":02FFFF00AABB9B\n") 1
      blankImage ∧
    ((1 <<< 16) ||| 0xFFFF) + 1 = 0x20000 ∧
    ∃ fw, hexLine (ascii ":02FFFF00AABB9B\n") 1 blankImage = .next 1 fw ∧
      fw[0x1FFFF]? = some 0xAA ∧ fw[0x20000]? = some 0xFF ∧ fw[0x10000]? = some 0xBB := by
  refine ⟨⟨[ascii ":00000155AA\n"], [], by decide!, ?_⟩, by decide, ?_⟩
  · rw [hexLines_cons, hexLine_bankSwitch bankSwitch_nl]
    rfl
  · have hm : ascii ":02FFFF00AABB9B\n" =
        [58] ++ hexBytes ([[0xAA, 0xBB].length, 0xFF, 0xFF, 0] ++ [0xAA, 0xBB] ++ [0x9B]) ++
          [10] := by decide
    have hb : BytesAt (ascii ":02FFFF00AABB9B\n") 1
        ([[0xAA, 0xBB].length, 0xFF, 0xFF, 0] ++ [0xAA, 0xBB] ++ [0x9B]) := by
      rw [hm]
      exact bytesAt_hexBytes [58] _ [10] (by decide)
    refine ⟨writePayload 1 [0xAA, 0xBB] ((0xFF * 256 + 0xFF : Nat) : Int) blankImage, ?_, ?_⟩
    · rw [hexLine_record (by decide) hb (by decide), if_pos (by decide)]
    · have e1 : (intOr (intShl 1 16) ((0xFF * 256 + 0xFF : Nat) : Int)).toNat = 0x1FFFF := by
        decide
      have e2 : (intOr (intShl 1 16) (((0xFF * 256 + 0xFF : Nat) : Int) + 1)).toNat =
          0x10000 := by decide
      have hw : writePayload 1 [0xAA, 0xBB] ((0xFF * 256 + 0xFF : Nat) : Int) blankImage =
          (blankImage.set 0x1FFFF 0xAA).set 0x10000 0xBB := by
        show (blankImage.set _ 0xAA).set _ 0xBB = _
        rw [e1, e2]
      have hbl : blankImage.length = 0x100000 := List.length_replicate _ _
      rw [hw]
      refine ⟨?_, ?_, ?_⟩
      · rw [List.getElem?_set_ne (by decide), List.getElem?_set_self (by rw [hbl]; decide)]
      · rw [List.getElem?_set_ne (by decide), List.getElem?_set_ne (by decide)]
        unfold blankImage
        rw [List.getElem?_replicate, if_pos (by decide)]
      · rw [List.getElem?_set_self (by rw [List.length_set, hbl]; decide)]

/-- C16, amended: an accepted type-0 data record with address `a = hi * 256 +
lo` and payload `p`, processed while the bank counter is `b <= 15`, leaves the
image with `p[i]` at index `((b << 16) | a) + i` for every `i < len(p)`, provided
`a + len(p) <= 0x10000` or `b` is even. -/
theorem payload_placement (line : List Nat) (hi lo c b : Nat) (payload fwbuf : List Nat)
    (h0 : charAt line 0 = 58)
    (h : BytesAt line 1 ([payload.length, hi, lo, 0] ++ payload ++ [c]))
    (hlen : 0 < payload.length) (hc : c = lineChecksum payload.length hi lo payload)
    (hb : b ≤ 15) (hfw : fwbuf.length = FLASHSIZE)
    (hcross : hi * 256 + lo + payload.length ≤ 0x10000 ∨ b % 2 = 0) :
    ∃ fw, hexLine line (b : Int) fwbuf = .next (b : Int) fw ∧
      ∀ i, i < payload.length → fw[((b <<< 16) ||| (hi * 256 + lo)) + i]? = payload[i]? := by
  have hbytes := bytesAt_lt h
  have hhi : hi < 256 := hbytes hi (by simp)
  have hlo : lo < 256 := hbytes lo (by simp)
  have hpl : payload.length < 256 := hbytes payload.length (by simp)
  have hF : FLASHSIZE = 0x100000 := rfl
  have hsh : b <<< 16 = 65536 * b := by rw [Nat.shiftLeft_eq]; omega
  refine ⟨_, by rw [hexLine_record h0 h hlen, if_pos hc], fun i hi2 => ?_⟩
  have hbase : b <<< 16 ||| (hi * 256 + lo) = b <<< 16 + (hi * 256 + lo) :=
    or_eq_add_of_lt b _ (by omega)
  have hidx : ∀ k, k < payload.length →
      (intOr (intShl (b : Int) 16) ((hi * 256 + lo + k : Nat) : Int)).toNat =
        (b <<< 16 ||| (hi * 256 + lo)) + k := by
    intro k hk
    rw [(bank_index b (hi * 256 + lo + k) hb (by omega)).1, Int.toNat_ofNat, hbase]
    rcases hcross with hx | hx
    · rw [or_eq_add_of_lt b _ (by omega)]
      omega
    · rw [or_eq_add_of_even b _ hx (by omega)]
      omega
  rw [writePayload_contiguous (b : Int) payload (hi * 256 + lo) _ fwbuf hidx
    (by
      rw [hfw, hF, hbase, hsh]
      rcases hcross with hx | hx <;> omega),
    if_pos (by omega), Nat.add_sub_cancel_left]

/-- Witness of the amended C16: the record `:02FFFF00AABB9B` in bank 2
crosses `0x10000` and is stored at `0x2FFFF` and `0x30000`. -/
theorem payload_placement_witness :
    ∃ fw, hexLine (ascii ":02FFFF00AABB9B\n") ((2 : Nat) : Int) blankImage =
        .next ((2 : Nat) : Int) fw ∧
      ∀ i, i < [0xAA, 0xBB].length →
        fw[((2 <<< 16) ||| (0xFF * 256 + 0xFF)) + i]? = [0xAA, 0xBB][i]? :=
  payload_placement (ascii ":02FFFF00AABB9B\n") 0xFF 0xFF 0x9B 2 [0xAA, 0xBB] blankImage
    (by decide)
    (by
      have hm : ascii ":02FFFF00AABB9B\n" =
          [58] ++ hexBytes ([[0xAA, 0xBB].length, 0xFF, 0xFF, 0] ++ [0xAA, 0xBB] ++ [0x9B]) ++
            [10] := by decide
      rw [hm]
      exact bytesAt_hexBytes [58] _ [10] (by decide))
    (by decide) (by decide) (by decide) (List.length_replicate _ _) (Or.inr (by decide))

/-! ## `fgets` on a file that is followed by more text -/

theorem fgetsAux_zero (f : List Nat) : fgetsAux 0 f = ([], f) := by
  cases f <;> rfl

theorem fgetsAux_cons (k c : Nat) (f : List Nat) :
    fgetsAux (k + 1) (c :: f) =
      if c = 10 then ([c], f) else ((fgetsAux k f).1.cons c, (fgetsAux k f).2) := by
  simp only [fgetsAux]

/-- When `fgets` leaves part of the file unread, text added after the file
does not change the line read. -/
theorem fgetsAux_append_rest (k : Nat) (f m : List Nat) (h : (fgetsAux k f).2 ≠ []) :
    fgetsAux k (f ++ m) = ((fgetsAux k f).1, (fgetsAux k f).2 ++ m) := by
  induction k generalizing f with
  | zero => rw [fgetsAux_zero, fgetsAux_zero]
  | succ k ih =>
    cases f with
    | nil => exact absurd rfl h
    | cons c t =>
      rw [List.cons_append, fgetsAux_cons, fgetsAux_cons]
      rw [fgetsAux_cons] at h
      split_ifs at h ⊢ with hc
      · rfl
      · rw [ih t h]

/-- When the file ends with a newline, text added after the file does not
change the line read. -/
theorem fgetsAux_append_newline (k : Nat) (body m : List Nat) :
    fgetsAux k ((body ++ [10]) ++ m) =
      ((fgetsAux k (body ++ [10])).1, (fgetsAux k (body ++ [10])).2 ++ m) := by
  induction k generalizing body with
  | zero => rw [fgetsAux_zero, fgetsAux_zero]
  | succ k ih =>
    cases body with
    | nil =>
      show fgetsAux (k + 1) (10 :: m) = ((fgetsAux (k + 1) [10]).1, (fgetsAux (k + 1) [10]).2 ++ m)
      rw [fgetsAux_cons, fgetsAux_cons, if_pos rfl, if_pos rfl]
      rfl
    | cons c t =>
      show fgetsAux (k + 1) (c :: ((t ++ [10]) ++ m)) =
        ((fgetsAux (k + 1) (c :: (t ++ [10]))).1, (fgetsAux (k + 1) (c :: (t ++ [10]))).2 ++ m)
      rw [fgetsAux_cons, fgetsAux_cons]
      split_ifs with hc
      · rfl
      · rw [ih t]

/-- Text added after the file can only lengthen the line read. -/
theorem fgetsAux_append_extends (k : Nat) (f m : List Nat) :
    ∃ x, (fgetsAux k (f ++ m)).1 = (fgetsAux k f).1 ++ x := by
  induction k generalizing f with
  | zero => exact ⟨[], by rw [fgetsAux_zero, fgetsAux_zero]; rfl⟩
  | succ k ih =>
    cases f with
    | nil => exact ⟨(fgetsAux (k + 1) m).1, by simp [fgetsAux]⟩
    | cons c t =>
      rw [List.cons_append, fgetsAux_cons, fgetsAux_cons]
      split_ifs with hc
      · exact ⟨[], by simp⟩
      · obtain ⟨x, hx⟩ := ih t
        exact ⟨x, by simp [hx]⟩

theorem lines_cons_inv {t c : List Nat} {rest : List (List Nat)} (h : lines t = c :: rest) :
    ∃ r, fgets 80 t = some (c, r) ∧ lines r = rest := by
  cases hg : fgets 80 t with
  | none =>
    have : t = [] := by
      unfold fgets at hg
      split_ifs at hg with ht
      exact ht
    rw [this, lines_nil] at h
    exact absurd h (by simp)
  | some lr =>
    obtain ⟨l, r⟩ := lr
    rw [lines_of_fgets hg] at h
    injection h with e1 e2
    exact ⟨r, by rw [e1], e2⟩

theorem lines_eq_nil {r : List Nat} (h : lines r = []) : r = [] := by
  cases r with
  | nil => rfl
  | cons c t =>
    have hg : fgets 80 (c :: t) = some (fgetsAux 79 (c :: t)) := by
      unfold fgets
      rw [if_neg (by simp)]
    rw [lines_of_fgets hg] at h
    exact absurd h (by simp)

theorem fgets_of_ne_nil {t : List Nat} (h : t ≠ []) :
    fgets 80 t = some (fgetsAux 79 t) := by
  unfold fgets
  rw [if_neg h]

/-- The lines of a file followed by more text: the lines before the last one
are the same, and the last one can only be lengthened. -/
theorem lines_append_extends (before : List (List Nat)) (t m l : List Nat)
    (h : lines t = before ++ [l]) :
    ∃ x after, lines (t ++ m) = before ++ (l ++ x) :: after := by
  induction before generalizing t with
  | nil =>
    obtain ⟨r, hg, hr⟩ := lines_cons_inv h
    have hr0 := lines_eq_nil hr
    have htne : t ≠ [] := by
      intro e
      rw [e, lines_nil] at h
      exact absurd h (by simp)
    have hg2 := fgets_of_ne_nil htne
    rw [hg] at hg2
    have hl : (fgetsAux 79 t).1 = l := by
      have := Option.some.inj hg2
      rw [← this]
    obtain ⟨x, hx⟩ := fgetsAux_append_extends 79 t m
    have hg3 : fgets 80 (t ++ m) = some ((fgetsAux 79 (t ++ m)).1, (fgetsAux 79 (t ++ m)).2) :=
      fgets_of_ne_nil (by simp [htne])
    refine ⟨x, lines (fgetsAux 79 (t ++ m)).2, ?_⟩
    rw [lines_of_fgets hg3, hx, hl]
    rfl
  | cons c bs ih =>
    obtain ⟨r, hg, hr⟩ := lines_cons_inv h
    have htne : t ≠ [] := by
      intro e
      rw [e, lines_nil] at h
      exact absurd h (by simp)
    have hrne : r ≠ [] := by
      intro e
      rw [e, lines_nil] at hr
      exact absurd hr.symm (by simp)
    have hg2 := fgets_of_ne_nil htne
    rw [hg] at hg2
    have h1 : (fgetsAux 79 t).1 = c := by rw [← Option.some.inj hg2]
    have h2 : (fgetsAux 79 t).2 = r := by rw [← Option.some.inj hg2]
    have hg3 : fgets 80 (t ++ m) = some (c, r ++ m) := by
      rw [fgets_of_ne_nil (by simp [htne]), fgetsAux_append_rest 79 t m (by rw [h2]; exact hrne),
        h1, h2]
    obtain ⟨x, after, hx⟩ := ih r hr
    exact ⟨x, after, by rw [lines_of_fgets hg3, hx]; rfl⟩

/-! ## C18: nothing after the end-of-file sentinel matters -/

theorem isEof_append {l : List Nat} (x : List Nat) (h : isEof l = true) :
    isEof (l ++ x) = true := by
  obtain ⟨tail, rfl⟩ := (isEof_iff l).1 h
  exact (isEof_iff _).2 ⟨tail ++ x, by rw [List.append_assoc]⟩

/-- C18: when the decode of the text `t` arrives without a failure at its last
line and that line is the end-of-file sentinel, the hex decoder gives on `t`
followed by any text `m` the result that it gives on `t`, which is fixed by the
state at the sentinel; the loop returns at the sentinel without reading on. -/
theorem after_eof_ignored (t m : List Nat) (before : List (List Nat)) (l : List Nat)
    (bank : Int) (fwbuf : List Nat) (hl : lines t = before ++ [l]) (he : isEof l = true)
    (hb : hexLines before 0 blankImage = .next bank fwbuf) :
    hexDecode (t ++ m) = hexDecode t ∧
    hexDecode t = (if bank ≠ 15 then .error .tooSmall else .ok fwbuf) ∧
    ∀ (fuel : Nat) (r rest : List Nat) (b : Int) (fw : List Nat),
      fgets 80 r = some (l, rest) → hexLoop (fuel + 1) r b fw = .ok (b, fw) := by
  obtain ⟨x, after, hx⟩ := lines_append_extends before t m l hl
  have h1 : hexDecode t = (if bank ≠ 15 then .error .tooSmall else .ok fwbuf) := by
    rw [hexDecode_eq, hl, hexLines_append, hb]
    simp only
    rw [hexLines_cons, hexLine_eof he]
    rfl
  refine ⟨?_, h1, fun fuel r rest b fw hg => ?_⟩
  · rw [h1, hexDecode_eq, hx, hexLines_append, hb]
    simp only
    rw [hexLines_cons, hexLine_eof (isEof_append x he)]
    rfl
  · simp only [hexLoop, hg, hexLine_eof he]

/-- Witness of C18: fifteen bank-switch lines and the end-of-file sentinel,
followed by a malformed line. -/
theorem after_eof_ignored_witness :
    hexDecode ((repeatLines 15 (ascii ":00000155AA\n") ++ ascii ":00000001FF\n") ++
      ascii ":zz not a record\n") =
    hexDecode (repeatLines 15 (ascii ":00000155AA\n") ++ ascii ":00000001FF\n") :=
  (after_eof_ignored (repeatLines 15 (ascii ":00000155AA\n") ++ ascii ":00000001FF\n")
    (ascii ":zz not a record\n") (List.replicate 15 (ascii ":00000155AA\n"))
    (ascii ":00000001FF\n") 15 blankImage lines_fifteen_eof eof_nl
    (hexLines_bankSwitches 15 _ bankSwitch_nl 0 blankImage (by decide))).1

/-! ## C13: lines that do not start with `:` -/

theorem atLineStart_rest {l r body : List Nat} (h : l ++ r = body ++ [10]) : AtLineStart r := by
  rcases List.eq_nil_or_concat r with hr | ⟨r2, c, hr⟩
  · exact Or.inl hr
  · right
    rw [List.concat_eq_append] at hr
    rw [hr, ← List.append_assoc] at h
    have := List.append_inj_right' h rfl
    exact ⟨r2, by rw [hr, this]⟩

/-- At the start of a line the lines of the text read so far and the lines of
the rest are read independently. -/
theorem lines_append_of_lineStart (n : Nat) (text rest : List Nat) (hn : text.length ≤ n)
    (h : AtLineStart text) : lines (text ++ rest) = lines text ++ lines rest := by
  induction n generalizing text with
  | zero =>
    have : text = [] := List.length_eq_zero.mp (by omega)
    rw [this, lines_nil]
    rfl
  | succ n ih =>
    rcases h with h | ⟨body, h⟩
    · rw [h, lines_nil]
      rfl
    · have hne : text ≠ [] := by rw [h]; simp
      have hg := fgets_of_ne_nil hne
      have hg2 : fgets 80 (text ++ rest) =
          some ((fgetsAux 79 text).1, (fgetsAux 79 text).2 ++ rest) := by
        rw [fgets_of_ne_nil (by simp [hne]), h, fgetsAux_append_newline]
      have hsome := fgets_some hg
      rw [lines_of_fgets hg, lines_of_fgets hg2,
        ih (fgetsAux 79 text).2 (by omega) (atLineStart_rest (hsome.1.trans h))]
      rfl

theorem hexLine_skip {l : List Nat} (h : charAt l 0 ≠ 58) (bank : Int) (fwbuf : List Nat) :
    hexLine l bank fwbuf = .next bank fwbuf := by
  unfold hexLine
  rw [if_pos h]

theorem hexLines_skip (ls : List (List Nat)) (h : ∀ l ∈ ls, charAt l 0 ≠ 58) (bank : Int)
    (fwbuf : List Nat) : hexLines ls bank fwbuf = .next bank fwbuf := by
  induction ls with
  | nil => rfl
  | cons l ls ih =>
    rw [hexLines_cons, hexLine_skip (h l (by simp))]
    exact ih (fun x hx => h x (List.mem_cons_of_mem _ hx))

theorem hexDecode_insert (before block after : List Nat) (hb : AtLineStart before)
    (hs : SkipBlock block) :
    hexDecode (before ++ block ++ after) = hexDecode (before ++ after) := by
  rw [hexDecode_eq, hexDecode_eq, List.append_assoc,
    lines_append_of_lineStart _ before _ (le_refl _) hb,
    lines_append_of_lineStart _ block _ (le_refl _) hs.1,
    lines_append_of_lineStart _ before _ (le_refl _) hb,
    hexLines_append, hexLines_append]
  cases hexLines (lines before) 0 blankImage with
  | next b fw =>
    simp only
    rw [hexLines_append, hexLines_skip _ hs.2]
  | stop b fw => rfl
  | fail e => rfl

theorem fgetsAux_full (line rest : List Nat) (h10 : 10 ∉ line) :
    fgetsAux line.length (line ++ rest) = (line, rest) := by
  induction line with
  | nil => exact fgetsAux_zero rest
  | cons c t ih =>
    have hc : c ≠ 10 := fun e => h10 (by simp [e])
    rw [List.length_cons, List.cons_append, fgetsAux_cons, if_neg hc,
      ih (fun e => h10 (List.mem_cons_of_mem _ e))]

theorem charAt_line_newline (line : List Nat) (h : charAt line 0 ≠ 58) :
    charAt (line ++ [10]) 0 ≠ 58 := by
  cases line with
  | nil => decide
  | cons c t => exact h

/-- A line of at most 79 characters that does not start with `:`, with its
newline, is a block of skipped lines. -/
theorem skipBlock_of_short (line : List Nat) (h10 : 10 ∉ line) (hlen : line.length ≤ 79)
    (h0 : charAt line 0 ≠ 58) : SkipBlock (line ++ [10]) := by
  refine ⟨Or.inr ⟨line, rfl⟩, ?_⟩
  by_cases h78 : line.length ≤ 78
  · rw [lines_line_cons h10 h78, lines_nil]
    intro l hl
    rw [List.mem_singleton] at hl
    rw [hl]
    exact charAt_line_newline line h0
  · have h79 : line.length = 79 := by omega
    have hne : line ++ [10] ≠ [] := by simp
    have hg : fgets 80 (line ++ [10]) = some (line, [10]) := by
      rw [fgets_of_ne_nil hne]
      have := fgetsAux_full line [10] h10
      rw [h79] at this
      rw [this]
    have hl10 : lines [10] = [[10]] := by decide
    rw [lines_of_fgets hg, hl10]
    intro l hl
    simp only [List.mem_cons, List.mem_singleton, List.not_mem_nil, or_false] at hl
    rcases hl with rfl | rfl
    · exact h0
    · decide

/-- C13, counterexample: the inserted line of 79 characters `x` followed by
`:` does not start with `:`, yet `fgets` cuts it after 79 characters and the
piece `:` is processed as a record: the decode of fifteen bank-switch lines and
the end-of-file sentinel succeeds, and fails once the line is inserted before
them. -/
theorem long_skipped_line_changes_result :
    charAt (List.replicate 79 120 ++ ascii ":\n") 0 ≠ 58 ∧
    hexDecode (repeatLines 15 (ascii ":00000155AA\n") ++ ascii ":00000001FF\n") =
      .ok blankImage ∧
    hexDecode ((List.replicate 79 120 ++ ascii ":\n") ++
      (repeatLines 15 (ascii ":00000155AA\n") ++ ascii ":00000001FF\n")) =
      .error (.malformedLine (ascii ":\n")) :=
  ⟨by decide, hexDecode_fifteen_eof, by decide!⟩

/-- C13, amended: inserting or deleting, at starts of lines and any number of
times, blocks of whole lines none of whose pieces (as `fgets(line, 80, f)` cuts
them) starts with `:` does not change the result of the hex decoder; every line
of at most 79 characters whose first character is not `:` is such a block. -/
theorem skipped_lines_irrelevant :
    (∀ f g : List Nat, SkipEdit f g → hexDecode f = hexDecode g) ∧
    (∀ line : List Nat, 10 ∉ line → line.length ≤ 79 → charAt line 0 ≠ 58 →
      SkipBlock (line ++ [10])) := by
  refine ⟨fun f g h => ?_, skipBlock_of_short⟩
  induction h with
  | refl f => rfl
  | insert before block after hb hs => exact (hexDecode_insert before block after hb hs).symm
  | delete before block after hb hs => exact hexDecode_insert before block after hb hs
  | trans _ _ ih1 ih2 => exact ih1.trans ih2

/-- Witness of the amended C13: a comment line inserted before fifteen
bank-switch lines and the end-of-file sentinel. -/
theorem skipped_lines_irrelevant_witness :
    hexDecode ([] ++ (repeatLines 15 (ascii ":00000155AA\n") ++ ascii ":00000001FF\n")) =
    hexDecode ([] ++ (ascii "; comment" ++ [10]) ++
      (repeatLines 15 (ascii ":00000155AA\n") ++ ascii ":00000001FF\n")) :=
  skipped_lines_irrelevant.1 _ _
    (SkipEdit.insert [] (ascii "; comment" ++ [10]) _ (Or.inl rfl)
      (skipped_lines_irrelevant.2 (ascii "; comment") (by decide) (by decide) (by decide)))

end Updater
